import Mathlib

/-!
# Linear perceptron of `Algorithm/Model/Perceptron/perceptron.go`

A shallow embedding of the trainer/scorer, of its two update strategies, of its
persistence methods and of the sparse weight vector they work on, followed by
the type `Decoded` of `alg/perceptron/types.go`.

Conventions of the embedding

* `float64` weights are idealised as rationals (`ℚ`); division is only meant
  for a non-zero divisor.
* A Go map is a reference that may be `nil`.  An allocated map is a
  `SparseWeightVector`; a field that may hold the nil map is an `Option`.
  Reading a nil map behaves like reading the empty map, writing to it panics.
* A method with a pointer receiver is a function returning the receiver's new
  state; a Go panic is a value of `Panic`.
* Interface values that may be `nil` (`FeatFunc`, `Updater`, `Decoder`) are
  `Option`s; calling a method on `none` is the nil-dereference panic.
* The `encoding/gob` library behind `Read` and `Write` is a parameter (`Codec`).
-/

set_option autoImplicit false

namespace Perceptron

/-! ## Sparse weight vector -/

/-- Modelled from the spec: the type `SparseWeightVector` (a Go map from Feature
to float64) is declared outside the given sources.  An allocated map is
represented by its entries; the map it denotes has the distinct first components
as keys and, for each key, the value of the first entry with that key. -/
abbrev SparseWeightVector (F : Type) := List (F × ℚ)

namespace SparseWeightVector

variable {F : Type} [DecidableEq F]

/-- Modelled from the spec: reading a key of the sparse weight vector, "absent key
implies weight 0 ... reads of missing keys always yield 0". -/
def weight : SparseWeightVector F → F → ℚ
  | [], _ => 0
  | (g, x) :: rest, f => if g = f then x else weight rest f

/-- Modelled from the spec: the key set of the mapping, each key once (what a Go
`range` over the map visits). -/
def keys (v : SparseWeightVector F) : List F :=
  (v.map Prod.fst).dedup

/-- Modelled from the spec: writing one key (`v[f] = x`); "no entry is materialized
until first written". -/
def set : SparseWeightVector F → F → ℚ → SparseWeightVector F
  | [], f, x => [(f, x)]
  | (g, y) :: rest, f, x => if g = f then (g, x) :: rest else (g, y) :: set rest f x

/-- Modelled from the spec: `dotProduct(features)`, "sum of weights for the given
feature set; missing features contribute 0; cost proportional to the size of the
query feature set". -/
def DotProductFeatures (v : SparseWeightVector F) (features : List F) : ℚ :=
  (features.map (weight v)).sum

/-- Modelled from the spec: `weightsOf(features)`, "a sub-vector restricted to the
given keys"; it is a new vector, the receiver is only read. -/
def FeatureWeights (v : SparseWeightVector F) (features : List F) : SparseWeightVector F :=
  v.filter (fun e => decide (e.1 ∈ features))

/-- Modelled from the spec: `add(other)`, "in-place, per-key accumulation; mutates
and returns the receiver": every key of `other` gets `other`'s weight added. -/
def UpdateAdd (v other : SparseWeightVector F) : SparseWeightVector F :=
  (keys other).foldl (fun acc k => set acc k (weight acc k + weight other k)) v

/-- Modelled from the spec: `subtract(other)`, the in-place per-key counterpart of
`UpdateAdd`. -/
def UpdateSubtract (v other : SparseWeightVector F) : SparseWeightVector F :=
  (keys other).foldl (fun acc k => set acc k (weight acc k - weight other k)) v

/-- Modelled from the spec: `scalarDivide(k)`, "in-place uniform division of every
stored weight by `k`". -/
def UpdateScalarDivide (v : SparseWeightVector F) (k : ℚ) : SparseWeightVector F :=
  v.map (fun e => (e.1, e.2 / k))

end SparseWeightVector

/-- Reading through a map reference that may be nil: a nil map reads as the empty
map. -/
def nilRead {F : Type} : Option (SparseWeightVector F) → SparseWeightVector F
  | none => []
  | some v => v

/-! ## Failures, collaborators and instances -/

/-- The run-time failures (Go panics) that the embedded code can raise. -/
inductive Panic where
  /-- The explicit guard of `train`: `panic("Model not initialized")`. -/
  | modelNotInitialized
  /-- A method call on a nil interface value. -/
  | nilDereference
  /-- An assignment to an entry of a nil map. -/
  | nilMapWrite
  deriving DecidableEq, Repr

/-- The value carried by the panic. -/
def Panic.message : Panic → String
  | .modelNotInitialized => "Model not initialized"
  | .nilDereference => "invalid memory address or nil pointer dereference"
  | .nilMapWrite => "assignment to entry in nil map"

/-- The interface `DecodedInstance` of package `Perceptron` as `train` and `Score`
use it: the methods `GetInstance` and `Equals`.  Its declaration is outside the
given sources, like those of the three interfaces below. -/
class DecodedInstance (DI : Type) (Inst : outParam Type) where
  /-- The underlying instance. -/
  GetInstance : DI → Inst
  /-- Structural equality with another decoded instance. -/
  Equals : DI → DI → Bool

/-- The interface `FeatureExtractor` as `Score`, `Init` and `train` use it:
`Features` of one instance and the sizing hint. -/
structure FeatureExtractor (F Inst : Type) where
  /-- The features of an instance. -/
  Features : Inst → List F
  /-- The sizing hint for the weight vector. -/
  EstimatedNumberOfFeatures : ℤ

/-- The interface `Model` under which `train` hands the receiver to the decoder:
the scorer. -/
structure Model (DI : Type) where
  /-- Score of a decoded instance under the current weights. -/
  Score : DI → Except Panic ℚ

/-- The interface `InstanceDecoder` as `train` uses it: `Decode` of an instance
and a model, returning one decoded instance.  The decoder is a function of its
two arguments. -/
structure InstanceDecoder (Inst DI : Type) where
  /-- The decoded instance for an instance, given the scorer. -/
  Decode : Inst → Model DI → DI

/-! ## Update strategies -/

/-- The Go type `TrivialStrategy struct{}`. -/
structure TrivialStrategy where
  deriving DecidableEq, Repr

/-- The Go type `AveragedStrategy`; `accumWeights` is `none` for the nil map of a
zero-valued strategy. -/
structure AveragedStrategy (F : Type) where
  /-- The iteration count as a float. -/
  P : ℚ
  /-- The number of `Update` calls since `Init`. -/
  N : ℚ
  /-- The running sum of the vectors passed to `Update`. -/
  accumWeights : Option (SparseWeightVector F)

section Strategies

variable {F : Type} [DecidableEq F]

/-- The method `TrivialStrategy.Init`: empty body. -/
def TrivialStrategy.Init (u : TrivialStrategy) (_w : Option (SparseWeightVector F))
    (_iterations : ℤ) : TrivialStrategy :=
  u

/-- The method `TrivialStrategy.Update`: empty body. -/
def TrivialStrategy.Update (u : TrivialStrategy) (_w : Option (SparseWeightVector F)) :
    Except Panic TrivialStrategy :=
  .ok u

/-- The method `TrivialStrategy.Finalize`: `return w`.  The result is the returned
vector and the strategy afterwards. -/
def TrivialStrategy.Finalize (u : TrivialStrategy) (w : Option (SparseWeightVector F)) :
    Option (SparseWeightVector F) × TrivialStrategy :=
  (w, u)

/-- The method `AveragedStrategy.Init`: `N = 0`, `P = float64(iterations)` and a
freshly made accumulator. -/
def AveragedStrategy.Init (_u : AveragedStrategy F) (_w : Option (SparseWeightVector F))
    (iterations : ℤ) : AveragedStrategy F :=
  { N := 0, P := (iterations : ℚ), accumWeights := some [] }

/-- The method `AveragedStrategy.Update`: `u.accumWeights.UpdateAdd(w)` then
`u.N += 1`.  The argument is only read.  On a nil accumulator the first key of
`w` to be written panics, before `N` is touched; with no key to write nothing
is written. -/
def AveragedStrategy.Update (u : AveragedStrategy F) (w : Option (SparseWeightVector F)) :
    Except Panic (AveragedStrategy F) :=
  match u.accumWeights with
  | some acc =>
      .ok { u with accumWeights := some (SparseWeightVector.UpdateAdd acc (nilRead w)),
                   N := u.N + 1 }
  | none =>
      if SparseWeightVector.keys (nilRead w) = [] then .ok { u with N := u.N + 1 }
      else .error .nilMapWrite

/-- The method `AveragedStrategy.Finalize`:
`u.accumWeights.UpdateScalarDivide(u.P * u.N)` then `return &u.accumWeights`.  A
nil accumulator has no entry to divide and is returned as it is. -/
def AveragedStrategy.Finalize (u : AveragedStrategy F) (_w : Option (SparseWeightVector F)) :
    Option (SparseWeightVector F) × AveragedStrategy F :=
  let acc := u.accumWeights.map (fun a => SparseWeightVector.UpdateScalarDivide a (u.P * u.N))
  (acc, { u with accumWeights := acc })

end Strategies

/-- The interface `UpdateStrategy` with its two implementations. -/
inductive UpdateStrategy (F : Type) where
  /-- A `*TrivialStrategy`. -/
  | Trivial (u : TrivialStrategy)
  /-- A `*AveragedStrategy`. -/
  | Averaged (u : AveragedStrategy F)

section Dispatch

variable {F : Type} [DecidableEq F]

/-- Dynamic dispatch of `UpdateStrategy.Init`. -/
def UpdateStrategy.Init (up : UpdateStrategy F) (w : Option (SparseWeightVector F))
    (iterations : ℤ) : UpdateStrategy F :=
  match up with
  | .Trivial u => .Trivial (u.Init w iterations)
  | .Averaged u => .Averaged (u.Init w iterations)

/-- Dynamic dispatch of `UpdateStrategy.Update`. -/
def UpdateStrategy.Update (up : UpdateStrategy F) (w : Option (SparseWeightVector F)) :
    Except Panic (UpdateStrategy F) :=
  match up with
  | .Trivial u => (u.Update w).map .Trivial
  | .Averaged u => (u.Update w).map .Averaged

/-- Dynamic dispatch of `UpdateStrategy.Finalize`. -/
def UpdateStrategy.Finalize (up : UpdateStrategy F) (w : Option (SparseWeightVector F)) :
    Option (SparseWeightVector F) × UpdateStrategy F :=
  match up with
  | .Trivial u => ((u.Finalize w).1, .Trivial (u.Finalize w).2)
  | .Averaged u => ((u.Finalize w).1, .Averaged (u.Finalize w).2)

end Dispatch

/-! ## The trainer / scorer -/

/-- The Go type `LinearPerceptron`.  `Weights` is `none` for the nil map of a
model that was never initialised; the three collaborators are `none` for a nil
interface value.  `Updater` holds the state of the strategy it points to. -/
structure LinearPerceptron (F Inst DI : Type) where
  /-- The live weight vector. -/
  Weights : Option (SparseWeightVector F)
  /-- The feature extractor. -/
  FeatFunc : Option (FeatureExtractor F Inst)
  /-- The update strategy. -/
  Updater : Option (UpdateStrategy F)
  /-- The decoder. -/
  Decoder : Option (InstanceDecoder Inst DI)
  /-- The iteration count handed to the strategy. -/
  Iterations : ℤ

/-- The calls that `train` makes to its collaborators, recorded in order (ghost
state of the embedding).  An `UpdaterUpdate` carries the vector it was given. -/
inductive Call (F : Type) where
  /-- The call `m.Updater.Init(&m.Weights, iterations)`. -/
  | UpdaterInit
  /-- The call `decoder.Decode(instance.GetInstance(), m)`. -/
  | Decode
  /-- A call `m.FeatFunc.Features(..)`. -/
  | Features
  /-- The call `m.Updater.Update(&m.Weights)`, with the value of `m.Weights`. -/
  | UpdaterUpdate (w : Option (SparseWeightVector F))
  /-- The call `m.Updater.Finalize(&m.Weights)`. -/
  | UpdaterFinalize

/-- Whether a recorded call is a call of the strategy's `Update`. -/
def Call.isUpdate {F : Type} : Call F → Bool
  | .UpdaterUpdate _ => true
  | _ => false

/-- The vectors handed to the strategy's `Update`, in call order. -/
def snapshots {F : Type} : List (Call F) → List (Option (SparseWeightVector F))
  | [] => []
  | .UpdaterUpdate w :: rest => w :: snapshots rest
  | _ :: rest => snapshots rest

/-- The state of an execution of `train`: the model as mutated so far, the panic
that stopped it (if any), the number of instances received from the channel and
the calls made to the collaborators. -/
structure TrainRun (F Inst DI : Type) where
  /-- The receiver `m`. -/
  model : LinearPerceptron F Inst DI
  /-- The panic that ended the execution, `none` while it runs or if it returned. -/
  panic : Option Panic
  /-- The number of instances taken from the channel. -/
  consumed : ℕ
  /-- The collaborator calls so far. -/
  calls : List (Call F)

section Trainer

variable {F Inst DI : Type} [DecidableEq F] [DecodedInstance DI Inst]

open DecodedInstance

/-- The method `LinearPerceptron.Score`: the features of the underlying instance,
then their dot product with `m.Weights`.  The second component is the receiver
after the call; the body assigns to no field. -/
def LinearPerceptron.Score (m : LinearPerceptron F Inst DI) (i : DI) :
    Except Panic ℚ × LinearPerceptron F Inst DI :=
  match m.FeatFunc with
  | none => (.error .nilDereference, m)
  | some fe =>
      let decodedFeatures := fe.Features (GetInstance i)
      (.ok (SparseWeightVector.DotProductFeatures (nilRead m.Weights) decodedFeatures), m)

/-- The receiver seen through the interface `Model`. -/
def LinearPerceptron.asModel (m : LinearPerceptron F Inst DI) : Model DI :=
  { Score := fun i => (m.Score i).1 }

/-- The method `LinearPerceptron.Init`.  The two collaborators are bound first;
the call `fe.EstimatedNumberOfFeatures()` panics on a nil extractor; the new
weight vector is an empty allocated map (the hint only sizes it). -/
def LinearPerceptron.Init (m : LinearPerceptron F Inst DI)
    (fe : Option (FeatureExtractor F Inst)) (up : Option (UpdateStrategy F)) :
    LinearPerceptron F Inst DI × Option Panic :=
  let m1 := { m with FeatFunc := fe, Updater := up }
  match fe with
  | none => (m1, some .nilDereference)
  | some _ => ({ m1 with Weights := some [] }, none)

/-- The body of `if !instance.Equals(decodedInstance) { .. }` in `train`: both
feature lists, both sub-vectors of the current weights, then
`m.Weights.UpdateAdd(goldWeights).UpdateSubtract(computedWeights)`. -/
def correction (r : TrainRun F Inst DI) (inst decodedInstance : DI) : TrainRun F Inst DI :=
  match r.model.FeatFunc with
  | none => { r with panic := some .nilDereference }
  | some fe =>
      let decodedFeatures := fe.Features (GetInstance decodedInstance)
      let goldFeatures := fe.Features (GetInstance inst)
      let calls := r.calls ++ [.Features, .Features]
      match r.model.Weights with
      | none =>
          -- both sub-vectors of a nil map are empty, so nothing is written
          { r with calls := calls }
      | some w =>
          let computedWeights := SparseWeightVector.FeatureWeights w decodedFeatures
          let goldWeights := SparseWeightVector.FeatureWeights w goldFeatures
          let w1 := SparseWeightVector.UpdateSubtract
            (SparseWeightVector.UpdateAdd w goldWeights) computedWeights
          { r with model := { r.model with Weights := some w1 }, calls := calls }

/-- The statement `m.Updater.Update(&m.Weights)` that ends the body of the loop; it
is not reached when the body has panicked before. -/
def updateHook (r : TrainRun F Inst DI) : TrainRun F Inst DI :=
  match r.panic with
  | some _ => r
  | none =>
      match r.model.Updater with
      | none => { r with panic := some .nilDereference }
      | some up =>
          match up.Update r.model.Weights with
          | .error p => { r with panic := some p }
          | .ok up1 =>
              { r with model := { r.model with Updater := some up1 },
                       calls := r.calls ++ [.UpdaterUpdate r.model.Weights] }

/-- One pass through the body of the loop of `train` for the instance `inst`:
decode, compare, correct on a mistake, then the strategy's `Update`. -/
def perInstance (decoder : Option (InstanceDecoder Inst DI)) (r : TrainRun F Inst DI)
    (inst : DI) : TrainRun F Inst DI :=
  match decoder with
  | none => { r with panic := some .nilDereference }
  | some dec =>
      let decodedInstance := dec.Decode (GetInstance inst) r.model.asModel
      let r1 := { r with calls := r.calls ++ [.Decode] }
      updateHook (if !Equals inst decodedInstance then correction r1 inst decodedInstance else r1)

/-- The loop `for instance := range instances { .. }` of `train` over a channel
that delivers the given instances and is then closed.  A panic ends it. -/
def trainLoop (decoder : Option (InstanceDecoder Inst DI)) :
    TrainRun F Inst DI → List DI → TrainRun F Inst DI
  | r, [] => r
  | r, inst :: rest =>
      let r1 := perInstance decoder { r with consumed := r.consumed + 1 } inst
      match r1.panic with
      | some _ => r1
      | none => trainLoop decoder r1 rest

/-- The last statement of `train`: `m.Weights = *m.Updater.Finalize(&m.Weights)`. -/
def finalizeStep (r : TrainRun F Inst DI) : TrainRun F Inst DI :=
  match r.model.Updater with
  | none => { r with panic := some .nilDereference }
  | some up =>
      { r with model := { r.model with Weights := (up.Finalize r.model.Weights).1,
                                        Updater := some (up.Finalize r.model.Weights).2 },
               calls := r.calls ++ [.UpdaterFinalize] }

/-- The state of `train` after `m.Updater.Init(&m.Weights, iterations)`, on
entering the loop; `up` is the strategy that `m.Updater` holds. -/
def enterLoop (m : LinearPerceptron F Inst DI) (up : UpdateStrategy F) (iterations : ℤ) :
    TrainRun F Inst DI :=
  { model := { m with Updater := some (up.Init m.Weights iterations) },
    panic := none, consumed := 0, calls := [.UpdaterInit] }

/-- The method `LinearPerceptron.train`. -/
def LinearPerceptron.train (m : LinearPerceptron F Inst DI) (instances : List DI)
    (decoder : Option (InstanceDecoder Inst DI)) (iterations : ℤ) : TrainRun F Inst DI :=
  match m.Weights with
  | none => { model := m, panic := some .modelNotInitialized, consumed := 0, calls := [] }
  | some _ =>
      match m.Updater with
      | none => { model := m, panic := some .nilDereference, consumed := 0, calls := [] }
      | some up =>
          let r1 := trainLoop decoder (enterLoop m up iterations) instances
          match r1.panic with
          | some _ => r1
          | none => finalizeStep r1

/-- The method `LinearPerceptron.Train`. -/
def LinearPerceptron.Train (m : LinearPerceptron F Inst DI) (instances : List DI) :
    TrainRun F Inst DI :=
  m.train instances m.Decoder m.Iterations

/-- The live weight vector as it stands right after each instance of the stream
has been processed: entry `k` is `m.Weights` once the loop, started in `r`, has
gone through the first `k + 1` instances. -/
def liveVectors (decoder : Option (InstanceDecoder Inst DI)) (r : TrainRun F Inst DI)
    (instances : List DI) : List (Option (SparseWeightVector F)) :=
  (List.range instances.length).map
    (fun k => (trainLoop decoder r (instances.take (k + 1))).model.Weights)

/-- A sequence of `Update` calls on an averaged strategy; a panic ends it. -/
def AveragedStrategy.updateAll (u : AveragedStrategy F) :
    List (Option (SparseWeightVector F)) → Except Panic (AveragedStrategy F)
  | [] => .ok u
  | w :: ws =>
      match u.Update w with
      | .error p => .error p
      | .ok u1 => u1.updateAll ws

/-- The quantity `dot(goldFeatures) - dot(decodedFeatures)` under the weights `w`. -/
def margin (w : SparseWeightVector F) (goldFeatures decodedFeatures : List F) : ℚ :=
  SparseWeightVector.DotProductFeatures w goldFeatures
    - SparseWeightVector.DotProductFeatures w decodedFeatures

/-- The sum, over a list of vectors, of the weight of one feature. -/
def sumOfWeights (vs : List (Option (SparseWeightVector F))) (f : F) : ℚ :=
  (vs.map (fun v => SparseWeightVector.weight (nilRead v) f)).sum

/-- A strategy whose `Update` can write: the trivial one, or an averaged one with
an allocated accumulator (which `Init` always leaves). -/
def UpdateStrategy.ready : UpdateStrategy F → Prop
  | .Trivial _ => True
  | .Averaged u => ∃ acc, u.accumWeights = some acc

/-- A run that can go on: no panic so far, the weight vector allocated, the
extractor bound and a ready strategy in `Updater`. -/
def TrainRun.sound (r : TrainRun F Inst DI) : Prop :=
  r.panic = none ∧ (∃ w, r.model.Weights = some w) ∧ (∃ fe, r.model.FeatFunc = some fe) ∧
    ∃ up, r.model.Updater = some up ∧ up.ready

/-- The state of an averaged strategy agrees with the `Update` calls recorded so
far: `P` is `I`, `N` counts the calls and the accumulator holds their sum. -/
def TrainRun.averaging (I : ℚ) (r : TrainRun F Inst DI) : Prop :=
  ∃ u acc, r.model.Updater = some (.Averaged u) ∧ u.accumWeights = some acc ∧ u.P = I ∧
    u.N = ((snapshots r.calls).length : ℚ) ∧
    ∀ f, SparseWeightVector.weight acc f = sumOfWeights (snapshots r.calls) f

end Trainer

/-! ## Persistence -/

/-- The `encoding/gob` encoder and decoder for the weight vector, taken as a
parameter: the library is not part of the sources.  `B` is what a sink receives
or a source delivers, `E` the library's errors. -/
structure Codec (F B E : Type) where
  /-- The call `enc.Encode(m.Weights)`: what is sent to the writer, or the error. -/
  Encode : Option (SparseWeightVector F) → Except E B
  /-- The call `dec.Decode(&model)` on a freshly made map: the map after a complete
  decode, or the error. -/
  Decode : B → Except E (SparseWeightVector F)

section Persistence

variable {F Inst DI B E : Type}

/-- The method `LinearPerceptron.Read`: decode into the local `model`, panic with
the error if there is one, else `m.Weights = model`.  The result is the receiver
after the call and the value of the panic, if any. -/
def LinearPerceptron.Read (m : LinearPerceptron F Inst DI) (c : Codec F B E) (reader : B) :
    LinearPerceptron F Inst DI × Option E :=
  match c.Decode reader with
  | .error err => (m, some err)
  | .ok model => ({ m with Weights := some model }, none)

/-- The method `LinearPerceptron.Write`: encode `m.Weights` to the writer, panic
with the error if there is one.  The result is what the writer received (or the
value of the panic) and the receiver after the call. -/
def LinearPerceptron.Write (m : LinearPerceptron F Inst DI) (c : Codec F B E) :
    Except E B × LinearPerceptron F Inst DI :=
  (c.Encode m.Weights, m)

/-- An averaged strategy as Go allocates it, `&AveragedStrategy{}`. -/
def AveragedStrategy.zeroValue : AveragedStrategy F :=
  { P := 0, N := 0, accumWeights := none }

end Persistence

section Fold

variable {F Inst DI : Type} [DecidableEq F] [DecodedInstance DI Inst]

/-- The model after one pass of the loop of `train`, as a function of the model
before it and the instance. -/
def stepModel (dec : InstanceDecoder Inst DI) (m : LinearPerceptron F Inst DI) (inst : DI) :
    LinearPerceptron F Inst DI :=
  (perInstance (some dec)
    { model := m, panic := none, consumed := 0, calls := [] } inst).model

end Fold

/-! ## Decoded instances of `alg/perceptron/types.go` -/

namespace Types

/-- The run-time failures of `Decoded.Equal`. -/
inductive EqualPanic where
  /-- A field access through a nil pointer, or a method call on a nil interface. -/
  | nilDereference
  /-- A failed type assertion `otherEq.(*Decoded)`. -/
  | interfaceConversion
  deriving DecidableEq, Repr

/-- The Go type `Decoded`.  A field is `none` for a nil interface value. -/
structure Decoded (I O : Type) where
  /-- The instance. -/
  InstanceVal : Option I
  /-- The decoded output. -/
  DecodedVal : Option O

/-- A value of the interface `util.Equaler` as `Decoded.Equal` can receive it. -/
inductive Equaler (I O X : Type) where
  /-- The nil interface value. -/
  | nil
  /-- A `*Decoded`; `none` is the nil pointer. -/
  | decoded (p : Option (Decoded I O))
  /-- A value of any other dynamic type. -/
  | other (x : X)

/-- The `Equal` methods of the values stored in a `Decoded`, declared outside the
given sources: each takes a `util.Equaler`, which may be nil, and returns a
boolean. -/
structure Equalities (I O : Type) where
  /-- The method `Equal` of an instance. -/
  instanceEqual : I → Option I → Bool
  /-- The method `Equal` of a decoded output. -/
  decodedEqual : O → Option O → Bool

/-- The method `Decoded.Equal`: false on the nil interface, then the type
assertion, then both field comparisons (each is evaluated), then their
conjunction. -/
def Decoded.Equal {I O X : Type} (eq : Equalities I O) (d : Decoded I O)
    (otherEq : Equaler I O X) : Except EqualPanic Bool :=
  match otherEq with
  | .nil => .ok false
  | .other _ => .error .interfaceConversion
  | .decoded none => .error .nilDereference
  | .decoded (some other) =>
      match d.InstanceVal with
      | none => .error .nilDereference
      | some i =>
          let instanceEq := eq.instanceEqual i other.InstanceVal
          match d.DecodedVal with
          | none => .error .nilDereference
          | some o =>
              let decodedEq := eq.decodedEqual o other.DecodedVal
              .ok (instanceEq && decodedEq)

end Types

/-! ## A concrete vocabulary and instance type for the worked scenarios -/

/-- The vocabulary `{f1, f2, f3}` of the worked scenarios. -/
inductive Feat where
  | f1
  | f2
  | f3
  deriving DecidableEq, Repr

/-- A decoded instance of the worked scenarios: an input and an output, both
numbered. -/
structure Tagged where
  /-- The underlying instance. -/
  input : ℕ
  /-- The structured output. -/
  output : ℕ
  deriving DecidableEq, Repr

instance : DecodedInstance Tagged ℕ where
  GetInstance d := d.input
  Equals a b := decide (a = b)

/-- The gold instance of the end-to-end scenario. -/
def scenarioGold : Tagged := { input := 0, output := 0 }

/-- The (wrong) output of the decoder of the end-to-end scenario. -/
def scenarioDecoded : Tagged := { input := 1, output := 1 }

/-- An extractor giving `{f1, f3}` for the gold instance and `{f2}` for the
decoder's output. -/
def scenarioExtractor : FeatureExtractor Feat ℕ :=
  { Features := fun n => if n = 0 then [Feat.f1, Feat.f3] else [Feat.f2],
    EstimatedNumberOfFeatures := 3 }

/-- A decoder that always answers `scenarioDecoded`. -/
def scenarioDecoder : InstanceDecoder ℕ Tagged :=
  { Decode := fun _ _ => scenarioDecoded }

/-- A decoder that reproduces the gold instance `scenarioGold`. -/
def agreeingDecoder : InstanceDecoder ℕ Tagged :=
  { Decode := fun n _ => { input := n, output := 0 } }

/-- The model of the end-to-end scenario: weights `{f1: 1, f2: 2}`. -/
def scenarioModel (up : UpdateStrategy Feat) (iterations : ℤ) : LinearPerceptron Feat ℕ Tagged :=
  { Weights := some [(Feat.f1, 1), (Feat.f2, 2)],
    FeatFunc := some scenarioExtractor,
    Updater := some up,
    Decoder := some scenarioDecoder,
    Iterations := iterations }

/-- The scenario's collaborators around an arbitrary weight field. -/
def scenarioModelWith (weights : Option (SparseWeightVector Feat)) (up : UpdateStrategy Feat)
    (decoder : InstanceDecoder ℕ Tagged) (iterations : ℤ) : LinearPerceptron Feat ℕ Tagged :=
  { Weights := weights,
    FeatFunc := some scenarioExtractor,
    Updater := some up,
    Decoder := some decoder,
    Iterations := iterations }

/-- A zero-valued averaged strategy, `&AveragedStrategy{}`. -/
def zeroAveraged : AveragedStrategy Feat :=
  { P := 0, N := 0, accumWeights := none }

/-- A toy encoding for the worked scenarios: the sink receives the entries
themselves, and a source may also deliver `none`, a truncated input. -/
def entriesCodec : Codec Feat (Option (SparseWeightVector Feat)) String :=
  { Encode := fun w => .ok (some (nilRead w)),
    Decode := fun b =>
      match b with
      | none => .error "unexpected EOF"
      | some v => .ok v }

/-- Equality of numbered instances and outputs: equal numbers, and nothing equals
nil. -/
def numberEqualities : Types.Equalities ℕ ℕ :=
  { instanceEqual := fun a b => decide (b = some a),
    decodedEqual := fun a b => decide (b = some a) }

/-- A run of `train` that has just entered the loop with the given model. -/
def startRun {F Inst DI : Type} (m : LinearPerceptron F Inst DI) : TrainRun F Inst DI :=
  { model := m, panic := none, consumed := 0, calls := [] }

/-! ## Facts about the sparse weight vector -/

namespace SparseWeightVector

variable {F : Type} [DecidableEq F]

theorem weight_nil (f : F) : weight ([] : SparseWeightVector F) f = 0 := rfl

theorem weight_cons (g : F) (x : ℚ) (rest : SparseWeightVector F) (f : F) :
    weight ((g, x) :: rest) f = if g = f then x else weight rest f := rfl

theorem weight_set (v : SparseWeightVector F) (f : F) (x : ℚ) (g : F) :
    weight (set v f x) g = if f = g then x else weight v g := by
  induction v with
  | nil => simp [set, weight]
  | cons e rest ih =>
      obtain ⟨k, y⟩ := e
      by_cases hk : k = f
      · subst hk
        by_cases hg : k = g <;> simp [set, weight, hg]
      · by_cases hg : k = g
        · subst hg
          have hne : ¬ f = k := fun h => hk h.symm
          simp [set, weight, hk, hne]
        · simp [set, weight, hk, hg, ih]

theorem weight_eq_zero_of_not_mem (v : SparseWeightVector F) (f : F)
    (h : f ∉ v.map Prod.fst) : weight v f = 0 := by
  induction v with
  | nil => rfl
  | cons e rest ih =>
      obtain ⟨k, y⟩ := e
      simp only [List.map_cons, List.mem_cons, not_or] at h
      have hk : ¬ k = f := fun hkf => h.1 hkf.symm
      simp [weight, hk, ih h.2]

theorem weight_eq_zero_of_not_mem_keys (v : SparseWeightVector F) (f : F)
    (h : f ∉ keys v) : weight v f = 0 := by
  apply weight_eq_zero_of_not_mem
  simpa [keys] using h

theorem weight_FeatureWeights (v : SparseWeightVector F) (features : List F) (f : F) :
    weight (FeatureWeights v features) f = if f ∈ features then weight v f else 0 := by
  induction v with
  | nil => simp [FeatureWeights, weight]
  | cons e rest ih =>
      obtain ⟨k, y⟩ := e
      unfold FeatureWeights at ih ⊢
      by_cases hk : k ∈ features
      · by_cases hkf : k = f
        · subst hkf
          simp [List.filter_cons, hk, weight]
        · simp only [List.filter_cons, hk, decide_True, if_true, weight, hkf, if_false]
          exact ih
      · by_cases hkf : k = f
        · subst hkf
          simp only [List.filter_cons, hk, decide_False, weight, if_true, if_false]
          simp only [Bool.false_eq_true, if_false]
          rw [ih]
          simp [hk]
        · simp only [List.filter_cons, hk, decide_False, weight, hkf, if_false,
            Bool.false_eq_true]
          exact ih

/-- Adding, key by key over a duplicate-free key list, the weights of `other`. -/
theorem weight_foldl_add (other : SparseWeightVector F) (ks : List F) (hks : ks.Nodup)
    (v : SparseWeightVector F) (f : F) :
    weight (ks.foldl (fun acc k => set acc k (weight acc k + weight other k)) v) f
      = weight v f + if f ∈ ks then weight other f else 0 := by
  induction ks generalizing v with
  | nil => simp
  | cons k rest ih =>
      rw [List.nodup_cons] at hks
      rw [List.foldl_cons, ih hks.2, weight_set]
      by_cases hkf : k = f
      · subst hkf
        simp [hks.1]
      · have hfk : ¬ f = k := fun h => hkf h.symm
        simp [hkf, hfk]

/-- Subtracting, key by key over a duplicate-free key list, the weights of `other`. -/
theorem weight_foldl_sub (other : SparseWeightVector F) (ks : List F) (hks : ks.Nodup)
    (v : SparseWeightVector F) (f : F) :
    weight (ks.foldl (fun acc k => set acc k (weight acc k - weight other k)) v) f
      = weight v f - if f ∈ ks then weight other f else 0 := by
  induction ks generalizing v with
  | nil => simp
  | cons k rest ih =>
      rw [List.nodup_cons] at hks
      rw [List.foldl_cons, ih hks.2, weight_set]
      by_cases hkf : k = f
      · subst hkf
        simp [hks.1]
      · have hfk : ¬ f = k := fun h => hkf h.symm
        simp [hkf, hfk]

theorem weight_UpdateAdd (v other : SparseWeightVector F) (f : F) :
    weight (UpdateAdd v other) f = weight v f + weight other f := by
  unfold UpdateAdd
  rw [weight_foldl_add other (keys other) (List.nodup_dedup _) v f]
  by_cases h : f ∈ keys other
  · simp [h]
  · simp [h, weight_eq_zero_of_not_mem_keys other f h]

theorem weight_UpdateSubtract (v other : SparseWeightVector F) (f : F) :
    weight (UpdateSubtract v other) f = weight v f - weight other f := by
  unfold UpdateSubtract
  rw [weight_foldl_sub other (keys other) (List.nodup_dedup _) v f]
  by_cases h : f ∈ keys other
  · simp [h]
  · simp [h, weight_eq_zero_of_not_mem_keys other f h]

theorem weight_UpdateScalarDivide (v : SparseWeightVector F) (k : ℚ) (f : F) :
    weight (UpdateScalarDivide v k) f = weight v f / k := by
  induction v with
  | nil => simp [UpdateScalarDivide, weight]
  | cons e rest ih =>
      obtain ⟨g, y⟩ := e
      unfold UpdateScalarDivide at ih ⊢
      by_cases hg : g = f
      · simp [weight, hg]
      · simp only [List.map_cons, weight, hg, if_false]
        exact ih

/-- The weights after the correction of `train`, feature by feature. -/
theorem weight_corrected (w : SparseWeightVector F) (G D : List F) (f : F) :
    weight (UpdateSubtract (UpdateAdd w (FeatureWeights w G)) (FeatureWeights w D)) f
      = weight w f + (if f ∈ G then weight w f else 0) - (if f ∈ D then weight w f else 0) := by
  rw [weight_UpdateSubtract, weight_UpdateAdd, weight_FeatureWeights, weight_FeatureWeights]

end SparseWeightVector

/-! ## Facts about one pass of the loop -/

section Step

variable {F Inst DI : Type} [DecidableEq F] [DecodedInstance DI Inst]

open DecodedInstance SparseWeightVector

omit [DecodedInstance DI Inst] in
/-- The strategies never write to the vector they are given, and `Update` binds no
collaborator. -/
theorem updateHook_frame (r : TrainRun F Inst DI) :
    (updateHook r).model.Weights = r.model.Weights ∧
    (updateHook r).model.FeatFunc = r.model.FeatFunc ∧
    (updateHook r).model.Decoder = r.model.Decoder ∧
    (updateHook r).model.Iterations = r.model.Iterations ∧
    (updateHook r).consumed = r.consumed := by
  unfold updateHook
  split
  · exact ⟨rfl, rfl, rfl, rfl, rfl⟩
  · split
    · exact ⟨rfl, rfl, rfl, rfl, rfl⟩
    · split <;> exact ⟨rfl, rfl, rfl, rfl, rfl⟩

/-- Whatever `Update` does, the pass ends with the weights that the comparison and
the correction left. -/
theorem perInstance_weights (decoder : Option (InstanceDecoder Inst DI))
    (r : TrainRun F Inst DI) (inst : DI) :
    (perInstance decoder r inst).model.Weights =
      match decoder with
      | none => r.model.Weights
      | some dec =>
          if Equals inst (dec.Decode (GetInstance inst) r.model.asModel) then r.model.Weights
          else (correction { r with calls := r.calls ++ [.Decode] } inst
                  (dec.Decode (GetInstance inst) r.model.asModel)).model.Weights := by
  cases decoder with
  | none => rfl
  | some dec =>
      simp only [perInstance]
      rw [(updateHook_frame _).1]
      cases hEq : Equals inst (dec.Decode (GetInstance inst) r.model.asModel) <;> simp

/-- The weights after the correction block, on an allocated vector with an
extractor bound. -/
theorem correction_weights (r : TrainRun F Inst DI) (inst decodedInstance : DI)
    (w : SparseWeightVector F) (fe : FeatureExtractor F Inst)
    (hW : r.model.Weights = some w) (hF : r.model.FeatFunc = some fe) :
    (correction r inst decodedInstance).model.Weights =
      some (UpdateSubtract (UpdateAdd w (FeatureWeights w (fe.Features (GetInstance inst))))
        (FeatureWeights w (fe.Features (GetInstance decodedInstance)))) := by
  simp only [correction, hW, hF]

/-- The weights after a pass on an instance that the decoder got wrong. -/
theorem perInstance_mistake_weights (dec : InstanceDecoder Inst DI) (r : TrainRun F Inst DI)
    (inst : DI) (w : SparseWeightVector F) (fe : FeatureExtractor F Inst)
    (hW : r.model.Weights = some w) (hF : r.model.FeatFunc = some fe)
    (hNe : Equals inst (dec.Decode (GetInstance inst) r.model.asModel) = false) :
    (perInstance (some dec) r inst).model.Weights =
      some (UpdateSubtract (UpdateAdd w (FeatureWeights w (fe.Features (GetInstance inst))))
        (FeatureWeights w (fe.Features
          (GetInstance (dec.Decode (GetInstance inst) r.model.asModel))))) := by
  rw [perInstance_weights]
  simp only [hNe, Bool.false_eq_true, if_false]
  exact correction_weights _ inst _ w fe hW hF

/-- The weights after a pass on an instance that the decoder got right. -/
theorem perInstance_correct_weights (dec : InstanceDecoder Inst DI) (r : TrainRun F Inst DI)
    (inst : DI) (hEq : Equals inst (dec.Decode (GetInstance inst) r.model.asModel) = true) :
    (perInstance (some dec) r inst).model.Weights = r.model.Weights := by
  rw [perInstance_weights]
  simp only [hEq, if_true]

/-- The correction block binds no collaborator and leaves `Iterations` alone. -/
theorem correction_frame (r : TrainRun F Inst DI) (inst decodedInstance : DI) :
    (correction r inst decodedInstance).model.FeatFunc = r.model.FeatFunc ∧
    (correction r inst decodedInstance).model.Decoder = r.model.Decoder ∧
    (correction r inst decodedInstance).model.Iterations = r.model.Iterations ∧
    (correction r inst decodedInstance).model.Updater = r.model.Updater ∧
    (correction r inst decodedInstance).consumed = r.consumed := by
  unfold correction
  split
  · exact ⟨rfl, rfl, rfl, rfl, rfl⟩
  · split <;> exact ⟨rfl, rfl, rfl, rfl, rfl⟩

/-- A pass of the loop binds no collaborator and leaves `Iterations` alone. -/
theorem perInstance_frame (decoder : Option (InstanceDecoder Inst DI))
    (r : TrainRun F Inst DI) (inst : DI) :
    (perInstance decoder r inst).model.FeatFunc = r.model.FeatFunc ∧
    (perInstance decoder r inst).model.Decoder = r.model.Decoder ∧
    (perInstance decoder r inst).model.Iterations = r.model.Iterations ∧
    (perInstance decoder r inst).consumed = r.consumed := by
  cases decoder with
  | none => exact ⟨rfl, rfl, rfl, rfl⟩
  | some dec =>
      simp only [perInstance]
      have hu := updateHook_frame
        (if (!Equals inst (dec.Decode (GetInstance inst) r.model.asModel)) = true then
          correction { r with calls := r.calls ++ [.Decode] } inst
            (dec.Decode (GetInstance inst) r.model.asModel)
        else { r with calls := r.calls ++ [.Decode] })
      rw [hu.2.1, hu.2.2.1, hu.2.2.2.1, hu.2.2.2.2]
      cases hEq : Equals inst (dec.Decode (GetInstance inst) r.model.asModel)
      · simp only [Bool.not_false, if_true]
        have h := correction_frame { r with calls := r.calls ++ [.Decode] } inst
          (dec.Decode (GetInstance inst) r.model.asModel)
        exact ⟨h.1, h.2.1, h.2.2.1, h.2.2.2.2⟩
      · simp only [Bool.not_true, Bool.false_eq_true, if_false]
        exact ⟨trivial, trivial, trivial, trivial⟩

end Step

/-! ## The end-to-end scenario (C1) -/

section Scenario

open DecodedInstance SparseWeightVector

/-- C1, at the failing input.  In the end-to-end scenario (weights `{f1: 1, f2: 2}`, gold
features `{f1, f3}`, decoded features `{f2}`, gold not equal to the decoder's output) the
pass of `train` adds the current weights of the gold features and subtracts the current
weights of the decoded ones: it ends with `f1: 2`, `f2: 0` and `f3: 0`, not with the
expected `{f1: 2, f2: 1, f3: 1}`. -/
theorem C1_scenario_divergence :
    Equals scenarioGold
        (scenarioDecoder.Decode (GetInstance scenarioGold)
          (startRun (scenarioModel (.Trivial {}) 1)).model.asModel) = false ∧
    scenarioExtractor.Features (GetInstance scenarioGold) = [Feat.f1, Feat.f3] ∧
    scenarioExtractor.Features (GetInstance scenarioDecoded) = [Feat.f2] ∧
    ∃ w1, (perInstance (some scenarioDecoder) (startRun (scenarioModel (.Trivial {}) 1))
          scenarioGold).model.Weights = some w1 ∧
      weight w1 Feat.f1 = 2 ∧ weight w1 Feat.f2 = 0 ∧ weight w1 Feat.f3 = 0 ∧
      ¬ (weight w1 Feat.f1 = 2 ∧ weight w1 Feat.f2 = 1 ∧ weight w1 Feat.f3 = 1) := by
  have hG : scenarioExtractor.Features (GetInstance scenarioGold) = [Feat.f1, Feat.f3] := by
    decide
  have hD : scenarioExtractor.Features
      (GetInstance (scenarioDecoder.Decode (GetInstance scenarioGold)
        (startRun (scenarioModel (.Trivial {}) 1)).model.asModel)) = [Feat.f2] := by decide
  have h1 : weight (UpdateSubtract
      (UpdateAdd [(Feat.f1, (1 : ℚ)), (Feat.f2, 2)]
        (FeatureWeights [(Feat.f1, 1), (Feat.f2, 2)] [Feat.f1, Feat.f3]))
      (FeatureWeights [(Feat.f1, 1), (Feat.f2, 2)] [Feat.f2])) Feat.f1 = 2 := by
    rw [weight_corrected]
    simp +decide [weight]
    norm_num
  have h2 : weight (UpdateSubtract
      (UpdateAdd [(Feat.f1, (1 : ℚ)), (Feat.f2, 2)]
        (FeatureWeights [(Feat.f1, 1), (Feat.f2, 2)] [Feat.f1, Feat.f3]))
      (FeatureWeights [(Feat.f1, 1), (Feat.f2, 2)] [Feat.f2])) Feat.f2 = 0 := by
    rw [weight_corrected]
    simp +decide [weight]
  have h3 : weight (UpdateSubtract
      (UpdateAdd [(Feat.f1, (1 : ℚ)), (Feat.f2, 2)]
        (FeatureWeights [(Feat.f1, 1), (Feat.f2, 2)] [Feat.f1, Feat.f3]))
      (FeatureWeights [(Feat.f1, 1), (Feat.f2, 2)] [Feat.f2])) Feat.f3 = 0 := by
    rw [weight_corrected]
    simp +decide [weight]
  refine ⟨by decide, hG, by decide, _,
    perInstance_mistake_weights scenarioDecoder _ scenarioGold
      [(Feat.f1, 1), (Feat.f2, 2)] scenarioExtractor rfl rfl (by decide), ?_⟩
  rw [hG, hD]
  refine ⟨h1, h2, h3, ?_⟩
  rintro ⟨-, h, -⟩
  rw [h2] at h
  norm_num at h

end Scenario

/-! ## The margin after a correction (C2) -/

section Margin

variable {F Inst DI : Type} [DecidableEq F] [DecodedInstance DI Inst]

open DecodedInstance SparseWeightVector

/-- Over features of `G`, the net change of the correction sums to the weights
of those outside `D`. -/
theorem sum_change_on_gold (w : SparseWeightVector F) (G D : List F) (L : List F)
    (hL : ∀ f ∈ L, f ∈ G) :
    (L.map (fun f => (if f ∈ G then weight w f else 0) - (if f ∈ D then weight w f else 0))).sum
      = DotProductFeatures w (L.filter (fun f => decide (f ∉ D))) := by
  induction L with
  | nil => simp [DotProductFeatures]
  | cons a rest ih =>
      have ha : a ∈ G := hL a (List.mem_cons_self _ _)
      have hrest : ∀ f ∈ rest, f ∈ G := fun f hf => hL f (List.mem_cons_of_mem _ hf)
      have ih1 := ih hrest
      unfold DotProductFeatures at ih1 ⊢
      by_cases hD : a ∈ D
      · simp only [List.map_cons, List.sum_cons, List.filter_cons, ha, hD, if_true,
          not_true_eq_false, decide_False, Bool.false_eq_true, if_false, ih1]
        ring
      · simp only [List.map_cons, List.sum_cons, List.filter_cons, ha, hD, if_true,
          not_false_eq_true, decide_True, if_false, ih1]
        ring

/-- Over features of `D`, the net change of the correction sums to minus the
weights of those outside `G`. -/
theorem sum_change_on_decoded (w : SparseWeightVector F) (G D : List F) (L : List F)
    (hL : ∀ f ∈ L, f ∈ D) :
    (L.map (fun f => (if f ∈ G then weight w f else 0) - (if f ∈ D then weight w f else 0))).sum
      = - DotProductFeatures w (L.filter (fun f => decide (f ∉ G))) := by
  induction L with
  | nil => simp [DotProductFeatures]
  | cons a rest ih =>
      have ha : a ∈ D := hL a (List.mem_cons_self _ _)
      have hrest : ∀ f ∈ rest, f ∈ D := fun f hf => hL f (List.mem_cons_of_mem _ hf)
      have ih1 := ih hrest
      unfold DotProductFeatures at ih1 ⊢
      by_cases hG : a ∈ G
      · simp only [List.map_cons, List.sum_cons, List.filter_cons, ha, hG, if_true,
          not_true_eq_false, decide_False, Bool.false_eq_true, if_false, ih1]
        ring
      · simp only [List.map_cons, List.sum_cons, List.filter_cons, ha, hG, if_true,
          not_false_eq_true, decide_True, if_false, ih1]
        ring

/-- The dot product with the corrected weights, split into the old dot product
and the net change. -/
theorem dot_corrected (w : SparseWeightVector F) (G D L : List F) :
    DotProductFeatures (UpdateSubtract (UpdateAdd w (FeatureWeights w G)) (FeatureWeights w D)) L
      = DotProductFeatures w L
        + (L.map (fun f => (if f ∈ G then weight w f else 0)
            - (if f ∈ D then weight w f else 0))).sum := by
  unfold DotProductFeatures
  induction L with
  | nil => simp
  | cons a rest ih =>
      simp only [List.map_cons, List.sum_cons, ih, weight_corrected]
      ring

/-- The margin under the corrected weights: the old margin plus the weights of the
features that only one side has. -/
theorem margin_corrected (w : SparseWeightVector F) (G D : List F) :
    margin (UpdateSubtract (UpdateAdd w (FeatureWeights w G)) (FeatureWeights w D)) G D
      = margin w G D
        + DotProductFeatures w (G.filter (fun f => decide (f ∉ D)))
        + DotProductFeatures w (D.filter (fun f => decide (f ∉ G))) := by
  unfold margin
  rw [dot_corrected, dot_corrected, sum_change_on_gold w G D G (fun _ h => h),
    sum_change_on_decoded w G D D (fun _ h => h)]
  ring

theorem DotProductFeatures_nil (L : List F) :
    DotProductFeatures ([] : SparseWeightVector F) L = 0 := by
  induction L with
  | nil => rfl
  | cons a rest ih =>
      unfold DotProductFeatures at ih ⊢
      simp [weight_nil, ih]

/-- C2, at the failing input.  On a model whose weights are all zero (the empty vector
that `Init` leaves), with gold features `{f1, f3}` and decoded features `{f2}` of a
mistaken instance, the pass of `train` leaves the margin `dot(G) - dot(D)` at 0: it is
not greater than before. -/
theorem C2_margin_divergence :
    Equals scenarioGold
        (scenarioDecoder.Decode (GetInstance scenarioGold)
          (startRun (scenarioModelWith (some []) (.Trivial {}) scenarioDecoder 1)).model.asModel)
      = false ∧
    ∃ w1, (perInstance (some scenarioDecoder)
          (startRun (scenarioModelWith (some []) (.Trivial {}) scenarioDecoder 1))
          scenarioGold).model.Weights = some w1 ∧
      margin ([] : SparseWeightVector Feat) [Feat.f1, Feat.f3] [Feat.f2] = 0 ∧
      margin w1 [Feat.f1, Feat.f3] [Feat.f2] = 0 ∧
      ¬ (margin w1 [Feat.f1, Feat.f3] [Feat.f2]
          > margin ([] : SparseWeightVector Feat) [Feat.f1, Feat.f3] [Feat.f2]) := by
  have hG : scenarioExtractor.Features (GetInstance scenarioGold) = [Feat.f1, Feat.f3] := by
    decide
  have hD : scenarioExtractor.Features
      (GetInstance (scenarioDecoder.Decode (GetInstance scenarioGold)
        (startRun (scenarioModelWith (some []) (.Trivial {}) scenarioDecoder 1)).model.asModel))
      = [Feat.f2] := by decide
  have h0 : margin ([] : SparseWeightVector Feat) [Feat.f1, Feat.f3] [Feat.f2] = 0 := by
    simp [margin, DotProductFeatures_nil]
  refine ⟨by decide, _, perInstance_mistake_weights scenarioDecoder _ scenarioGold []
    scenarioExtractor rfl rfl (by decide), h0, ?_, ?_⟩
  · rw [hG, hD, margin_corrected, DotProductFeatures_nil, DotProductFeatures_nil, h0]
    simp
  · rw [hG, hD, margin_corrected, DotProductFeatures_nil, DotProductFeatures_nil]
    simp

end Margin

/-! ## A correct prediction changes no weight (C3) -/

section Correct

variable {F Inst DI : Type} [DecidableEq F] [DecodedInstance DI Inst]

open DecodedInstance SparseWeightVector

/-- C3.  For every state of the run (any model, any strategy in `Updater`) and every
instance that `Equals` the decoder's output, the pass of `train` for that instance
leaves `Weights` as it was, hence the weight of every feature; `FeatFunc`, `Decoder` and
`Iterations` are untouched too, so only the strategy's state can differ. -/
theorem C3_correct_prediction_keeps_weights (dec : InstanceDecoder Inst DI)
    (r : TrainRun F Inst DI) (inst : DI)
    (hEq : Equals inst (dec.Decode (GetInstance inst) r.model.asModel) = true) :
    (perInstance (some dec) r inst).model.Weights = r.model.Weights ∧
    (∀ f, weight (nilRead (perInstance (some dec) r inst).model.Weights) f
        = weight (nilRead r.model.Weights) f) ∧
    (perInstance (some dec) r inst).model.FeatFunc = r.model.FeatFunc ∧
    (perInstance (some dec) r inst).model.Decoder = r.model.Decoder ∧
    (perInstance (some dec) r inst).model.Iterations = r.model.Iterations := by
  have hw := perInstance_correct_weights dec r inst hEq
  have hf := perInstance_frame (some dec) r inst
  refine ⟨hw, ?_, hf.1, hf.2.1, hf.2.2.1⟩
  intro f
  rw [hw]

/-- C3 on the scenario model with an averaged strategy and a decoder that finds the
gold output. -/
theorem C3_correct_prediction_keeps_weights_witness :
    (perInstance (some agreeingDecoder)
        (startRun (scenarioModelWith (some [(Feat.f1, 1), (Feat.f2, 2)])
          (.Averaged (zeroAveraged.Init none 1)) agreeingDecoder 1))
        scenarioGold).model.Weights = some [(Feat.f1, 1), (Feat.f2, 2)] :=
  (C3_correct_prediction_keeps_weights agreeingDecoder
    (startRun (scenarioModelWith (some [(Feat.f1, 1), (Feat.f2, 2)])
      (.Averaged (zeroAveraged.Init none 1)) agreeingDecoder 1))
    scenarioGold (by decide)).1

end Correct

/-! ## The averaged strategy (C4) -/

section Averaged

variable {F : Type} [DecidableEq F]

open SparseWeightVector

theorem sumOfWeights_nil (f : F) : sumOfWeights ([] : List (Option (SparseWeightVector F))) f = 0 :=
  rfl

theorem sumOfWeights_cons (v : Option (SparseWeightVector F))
    (vs : List (Option (SparseWeightVector F))) (f : F) :
    sumOfWeights (v :: vs) f = weight (nilRead v) f + sumOfWeights vs f := by
  simp [sumOfWeights]

theorem sumOfWeights_append (vs us : List (Option (SparseWeightVector F))) (f : F) :
    sumOfWeights (vs ++ us) f = sumOfWeights vs f + sumOfWeights us f := by
  simp [sumOfWeights]

/-- One `Update` on an allocated accumulator: it succeeds, adds the vector and
counts the call. -/
theorem AveragedStrategy.Update_of_some (u : AveragedStrategy F) (acc : SparseWeightVector F)
    (h : u.accumWeights = some acc) (w : Option (SparseWeightVector F)) :
    u.Update w = .ok { u with accumWeights := some (UpdateAdd acc (nilRead w)), N := u.N + 1 } := by
  simp only [AveragedStrategy.Update, h]

/-- A sequence of `Update` calls on an allocated accumulator. -/
theorem AveragedStrategy.updateAll_of_some (ws : List (Option (SparseWeightVector F)))
    (u : AveragedStrategy F) (acc : SparseWeightVector F) (h : u.accumWeights = some acc) :
    ∃ u1 acc1, u.updateAll ws = .ok u1 ∧ u1.accumWeights = some acc1 ∧
      (∀ f, weight acc1 f = weight acc f + sumOfWeights ws f) ∧
      u1.N = u.N + (ws.length : ℚ) ∧ u1.P = u.P := by
  induction ws generalizing u acc with
  | nil => exact ⟨u, acc, rfl, h, fun f => by simp [sumOfWeights_nil], by simp, rfl⟩
  | cons w rest ih =>
      obtain ⟨u1, acc1, hrun, hacc, hsum, hN, hP⟩ :=
        ih { u with accumWeights := some (UpdateAdd acc (nilRead w)), N := u.N + 1 }
          (UpdateAdd acc (nilRead w)) rfl
      refine ⟨u1, acc1, ?_, hacc, ?_, ?_, hP⟩
      · simp only [AveragedStrategy.updateAll, AveragedStrategy.Update_of_some u acc h]
        exact hrun
      · intro f
        rw [hsum f, weight_UpdateAdd, sumOfWeights_cons]
        ring
      · rw [hN]
        simp only [List.length_cons, Nat.cast_add, Nat.cast_one]
        ring

/-- C4.  For every iteration count `I` and every sequence of `N` vectors with `I * N`
non-zero (so `N >= 1`), `Init(_, I)`, then `Update` on each vector, then `Finalize`
succeeds and returns, whatever argument `Finalize` is given, a vector whose weight for
every feature is the sum of that feature's weights over the sequence divided by
`I * N`. -/
theorem C4_averaged_finalize (u0 : AveragedStrategy F) (w0 : Option (SparseWeightVector F))
    (I : ℤ) (ws : List (Option (SparseWeightVector F)))
    (hIN : (I : ℚ) * (ws.length : ℚ) ≠ 0) :
    1 ≤ ws.length ∧
    ∃ u acc, (u0.Init w0 I).updateAll ws = .ok u ∧
      ∀ wfin, (u.Finalize wfin).1 = some acc ∧
        ∀ f, weight acc f = sumOfWeights ws f / ((I : ℚ) * (ws.length : ℚ)) ∧
          weight acc f * ((I : ℚ) * (ws.length : ℚ)) = sumOfWeights ws f := by
  obtain ⟨u1, acc1, hrun, hacc, hsum, hcount, hP⟩ :=
    AveragedStrategy.updateAll_of_some ws (u0.Init w0 I) [] rfl
  have hlen : 1 ≤ ws.length := by
    rcases Nat.eq_zero_or_pos ws.length with h0 | hpos
    · exact absurd (by rw [h0]; simp) hIN
    · exact hpos
  refine ⟨hlen, u1, UpdateScalarDivide acc1 ((I : ℚ) * (ws.length : ℚ)), hrun, ?_⟩
  have hP1 : u1.P = (I : ℚ) := by rw [hP]; rfl
  have hN1 : u1.N = (ws.length : ℚ) := by
    rw [hcount]
    simp [AveragedStrategy.Init]
  intro wfin
  constructor
  · simp only [AveragedStrategy.Finalize, hacc, Option.map_some', hP1, hN1]
  · intro f
    have hval : weight (UpdateScalarDivide acc1 ((I : ℚ) * (ws.length : ℚ))) f
        = sumOfWeights ws f / ((I : ℚ) * (ws.length : ℚ)) := by
      rw [weight_UpdateScalarDivide, hsum f, weight_nil, zero_add]
    refine ⟨hval, ?_⟩
    rw [hval]
    exact div_mul_cancel₀ _ hIN

/-- C4 on the spec's example: `I = 1` and updates `{f1: 1}`, `{f1: 3}`, `{f1: 2}` give
`f1: 2`. -/
theorem C4_averaged_finalize_witness :
    (1 ≤ [some [(Feat.f1, (1 : ℚ))], some [(Feat.f1, 3)], some [(Feat.f1, 2)]].length ∧
      ∃ u acc, (zeroAveraged.Init none 1).updateAll
        [some [(Feat.f1, 1)], some [(Feat.f1, 3)], some [(Feat.f1, 2)]] = .ok u ∧
      ∀ wfin, (u.Finalize wfin).1 = some acc ∧
        ∀ f, weight acc f
          = sumOfWeights [some [(Feat.f1, 1)], some [(Feat.f1, 3)], some [(Feat.f1, 2)]] f
            / (((1 : ℤ) : ℚ) * ((3 : ℕ) : ℚ)) ∧
          weight acc f * (((1 : ℤ) : ℚ) * ((3 : ℕ) : ℚ))
            = sumOfWeights [some [(Feat.f1, 1)], some [(Feat.f1, 3)], some [(Feat.f1, 2)]] f) ∧
    sumOfWeights [some [(Feat.f1, 1)], some [(Feat.f1, 3)], some [(Feat.f1, 2)]] Feat.f1
      / (((1 : ℤ) : ℚ) * ((3 : ℕ) : ℚ)) = 2 :=
  ⟨C4_averaged_finalize zeroAveraged none 1
      [some [(Feat.f1, 1)], some [(Feat.f1, 3)], some [(Feat.f1, 2)]] (by norm_num),
    by norm_num [sumOfWeights, weight, nilRead]⟩

end Averaged

/-! ## Facts about the loop of `train` -/

section Loop

variable {F Inst DI : Type} [DecidableEq F] [DecodedInstance DI Inst]

open DecodedInstance SparseWeightVector

omit [DecidableEq F] in
theorem snapshots_append (a b : List (Call F)) :
    snapshots (a ++ b) = snapshots a ++ snapshots b := by
  induction a with
  | nil => rfl
  | cons c rest ih => cases c <;> simp [snapshots, ih]

omit [DecidableEq F] in
theorem length_snapshots (cs : List (Call F)) :
    (snapshots cs).length = cs.countP Call.isUpdate := by
  induction cs with
  | nil => rfl
  | cons c rest ih => cases c <;> simp [snapshots, Call.isUpdate, ih]

/-- A ready strategy accepts an `Update` and stays ready. -/
theorem UpdateStrategy.Update_of_ready (up : UpdateStrategy F) (h : up.ready)
    (w : Option (SparseWeightVector F)) :
    ∃ up1, up.Update w = .ok up1 ∧ up1.ready := by
  cases up with
  | Trivial u => exact ⟨.Trivial u, rfl, trivial⟩
  | Averaged u =>
      obtain ⟨acc, hacc⟩ := h
      refine ⟨.Averaged { u with accumWeights := some (UpdateAdd acc (nilRead w)), N := u.N + 1 },
        ?_, ⟨_, rfl⟩⟩
      simp only [UpdateStrategy.Update, AveragedStrategy.Update_of_some u acc hacc]
      rfl

/-- The shape of a pass of the loop in a sound run: it does not panic, the weights
it ends with are the ones handed to `Update`, and `Update` is called once, last. -/
theorem perInstance_of_sound (dec : InstanceDecoder Inst DI) (r : TrainRun F Inst DI)
    (inst : DI) (h : r.sound) :
    ∃ pre up up1 w1, r.model.Updater = some up ∧
      (perInstance (some dec) r inst).model.Weights = some w1 ∧
      up.Update (some w1) = .ok up1 ∧ up1.ready ∧
      (perInstance (some dec) r inst).model.Updater = some up1 ∧
      (perInstance (some dec) r inst).panic = none ∧
      (perInstance (some dec) r inst).calls = r.calls ++ pre ++ [.UpdaterUpdate (some w1)] ∧
      snapshots pre = [] := by
  obtain ⟨hP, ⟨w, hW⟩, ⟨fe, hF⟩, up, hU, hready⟩ := h
  cases hEq : Equals inst (dec.Decode (GetInstance inst) r.model.asModel)
  · -- a mistake
    obtain ⟨up1, hupd, hr1⟩ := UpdateStrategy.Update_of_ready up hready
      (some (UpdateSubtract (UpdateAdd w (FeatureWeights w (fe.Features (GetInstance inst))))
        (FeatureWeights w (fe.Features
          (GetInstance (dec.Decode (GetInstance inst) r.model.asModel))))))
    refine ⟨[.Decode, .Features, .Features], up, up1, _, hU, ?_, hupd, hr1, ?_, ?_, ?_, rfl⟩
    · exact perInstance_mistake_weights dec r inst w fe hW hF hEq
    · simp only [perInstance, updateHook, hEq, correction, hW, hF, hU, hP, hupd, Bool.not_false,
        if_true]
    · simp only [perInstance, updateHook, hEq, correction, hW, hF, hU, hP, hupd, Bool.not_false,
        if_true]
    · simp only [perInstance, updateHook, hEq, correction, hW, hF, hU, hP, hupd, Bool.not_false,
        if_true, List.append_assoc, List.cons_append, List.nil_append]
  · -- a correct prediction
    obtain ⟨up1, hupd, hr1⟩ := UpdateStrategy.Update_of_ready up hready (some w)
    refine ⟨[.Decode], up, up1, w, hU, ?_, hupd, hr1, ?_, ?_, ?_, rfl⟩
    · rw [perInstance_correct_weights dec r inst hEq, hW]
    · simp only [perInstance, updateHook, hEq, hW, hU, hP, hupd, Bool.not_true,
        Bool.false_eq_true, if_false]
    · simp only [perInstance, updateHook, hEq, hW, hU, hP, hupd, Bool.not_true,
        Bool.false_eq_true, if_false]
    · simp only [perInstance, updateHook, hEq, hW, hU, hP, hupd, Bool.not_true,
        Bool.false_eq_true, if_false, List.append_assoc, List.cons_append, List.nil_append]

/-- A pass of the loop keeps a sound run sound. -/
theorem perInstance_sound (dec : InstanceDecoder Inst DI) (r : TrainRun F Inst DI)
    (inst : DI) (h : r.sound) : (perInstance (some dec) r inst).sound := by
  obtain ⟨pre, up, up1, w1, -, hW1, -, hr1, hU1, hP1, -, -⟩ := perInstance_of_sound dec r inst h
  obtain ⟨-, -, ⟨fe, hF⟩, -⟩ := h
  exact ⟨hP1, ⟨w1, hW1⟩, ⟨fe, by rw [(perInstance_frame (some dec) r inst).1, hF]⟩,
    ⟨up1, hU1, hr1⟩⟩

/-- A pass of the loop records one more snapshot: the weights it ends with. -/
theorem perInstance_snapshots (dec : InstanceDecoder Inst DI) (r : TrainRun F Inst DI)
    (inst : DI) (h : r.sound) :
    snapshots (perInstance (some dec) r inst).calls
      = snapshots r.calls ++ [(perInstance (some dec) r inst).model.Weights] := by
  obtain ⟨pre, up, up1, w1, -, hW1, -, -, -, -, hC, hpre⟩ := perInstance_of_sound dec r inst h
  rw [hC, hW1, snapshots_append, snapshots_append, hpre]
  simp [snapshots]

/-- A pass of the loop keeps the averaged strategy in step with the recorded
calls. -/
theorem perInstance_averaging (dec : InstanceDecoder Inst DI) (r : TrainRun F Inst DI)
    (inst : DI) (I : ℚ) (h : r.sound) (ha : r.averaging I) :
    (perInstance (some dec) r inst).averaging I := by
  have hsnap := perInstance_snapshots dec r inst h
  obtain ⟨pre, up, up1, w1, hU, hW1, hupd, -, hU1, -, -, -⟩ := perInstance_of_sound dec r inst h
  obtain ⟨u, acc, hUa, hacc, hPI, hN, hsum⟩ := ha
  rw [hUa] at hU
  have hup : up = .Averaged u := (Option.some.inj hU).symm
  subst hup
  simp only [UpdateStrategy.Update, AveragedStrategy.Update_of_some u acc hacc] at hupd
  have hup1 : up1 = .Averaged
      { u with accumWeights := some (UpdateAdd acc (nilRead (some w1))), N := u.N + 1 } := by
    cases hupd
    rfl
  refine ⟨{ u with accumWeights := some (UpdateAdd acc (nilRead (some w1))), N := u.N + 1 },
    UpdateAdd acc w1, by rw [hU1, hup1], rfl, hPI, ?_, ?_⟩
  · rw [hsnap]
    simp only [List.length_append, List.length_singleton, Nat.cast_add, Nat.cast_one]
    rw [← hN]
  · intro f
    rw [hsnap, hW1, sumOfWeights_append, sumOfWeights_cons, sumOfWeights_nil, weight_UpdateAdd,
      hsum f]
    simp [nilRead]

/-- The live vectors of a stream, one instance at a time. -/
theorem liveVectors_cons (decoder : Option (InstanceDecoder Inst DI)) (r : TrainRun F Inst DI)
    (x : DI) (xs : List DI)
    (hP : (perInstance decoder { r with consumed := r.consumed + 1 } x).panic = none) :
    liveVectors decoder r (x :: xs)
      = (perInstance decoder { r with consumed := r.consumed + 1 } x).model.Weights
        :: liveVectors decoder (perInstance decoder { r with consumed := r.consumed + 1 } x) xs := by
  unfold liveVectors
  rw [List.length_cons, List.range_succ_eq_map, List.map_cons, List.map_map]
  congr 1
  · simp only [Nat.zero_add, List.take_succ_cons, List.take_zero, trainLoop, hP]
  · apply List.map_congr_left
    intro k _
    simp only [Function.comp_apply, List.take_succ_cons, trainLoop, hP]

/-- The loop over a whole stream in a sound run. -/
theorem trainLoop_of_sound (dec : InstanceDecoder Inst DI) (xs : List DI)
    (r : TrainRun F Inst DI) (h : r.sound) :
    (trainLoop (some dec) r xs).sound ∧
    snapshots (trainLoop (some dec) r xs).calls
      = snapshots r.calls ++ liveVectors (some dec) r xs ∧
    (trainLoop (some dec) r xs).consumed = r.consumed + xs.length ∧
    (∀ I, r.averaging I → (trainLoop (some dec) r xs).averaging I) := by
  induction xs generalizing r with
  | nil => exact ⟨h, by simp [trainLoop, liveVectors], rfl, fun _ ha => ha⟩
  | cons x rest ih =>
      have hb : TrainRun.sound { r with consumed := r.consumed + 1 } := h
      have h1 := perInstance_sound dec _ x hb
      have hP := h1.1
      obtain ⟨ihS, ihSnap, ihC, ihA⟩ := ih _ h1
      have hstep : trainLoop (some dec) r (x :: rest)
          = trainLoop (some dec)
              (perInstance (some dec) { r with consumed := r.consumed + 1 } x) rest := by
        simp only [trainLoop, hP]
      rw [hstep, liveVectors_cons (some dec) r x rest hP]
      refine ⟨ihS, ?_, ?_, ?_⟩
      · rw [ihSnap, perInstance_snapshots dec _ x hb]
        simp
      · rw [ihC, (perInstance_frame (some dec) _ x).2.2.2]
        simp only [List.length_cons]
        omega
      · intro I ha
        exact ihA I (perInstance_averaging dec _ x I hb ha)

theorem length_liveVectors (decoder : Option (InstanceDecoder Inst DI)) (r : TrainRun F Inst DI)
    (xs : List DI) : (liveVectors decoder r xs).length = xs.length := by
  simp [liveVectors]

/-- The last live vector is the one the loop ends with. -/
theorem getLast_liveVectors (decoder : Option (InstanceDecoder Inst DI))
    (r : TrainRun F Inst DI) (xs : List DI) (hne : xs ≠ []) :
    (liveVectors decoder r xs).getLast? = some (trainLoop decoder r xs).model.Weights := by
  have hpos : 0 < xs.length := List.length_pos.2 hne
  rw [List.getLast?_eq_getElem?, length_liveVectors]
  unfold liveVectors
  rw [List.getElem?_map, List.getElem?_range (by omega)]
  have hk : xs.length - 1 + 1 = xs.length := by omega
  simp only [Option.map_some', hk, List.take_length]

omit [DecidableEq F] in
/-- Every strategy is ready after its `Init`. -/
theorem UpdateStrategy.Init_ready (up : UpdateStrategy F) (w : Option (SparseWeightVector F))
    (iterations : ℤ) : (up.Init w iterations).ready := by
  cases up with
  | Trivial u => trivial
  | Averaged u => exact ⟨[], rfl⟩

omit [DecidableEq F] [DecodedInstance DI Inst] in
/-- On an initialised model the loop is entered in a sound state. -/
theorem enterLoop_sound (m : LinearPerceptron F Inst DI) (up : UpdateStrategy F)
    (iterations : ℤ) (w : SparseWeightVector F) (fe : FeatureExtractor F Inst)
    (hW : m.Weights = some w) (hF : m.FeatFunc = some fe) :
    (enterLoop m up iterations).sound :=
  ⟨rfl, ⟨w, hW⟩, ⟨fe, hF⟩, ⟨_, rfl, UpdateStrategy.Init_ready up m.Weights iterations⟩⟩

omit [DecodedInstance DI Inst] in
/-- The averaged strategy enters the loop with `P = iterations`, `N = 0` and an
empty accumulator. -/
theorem enterLoop_averaging (m : LinearPerceptron F Inst DI) (u0 : AveragedStrategy F)
    (iterations : ℤ) :
    (enterLoop m (.Averaged u0) iterations).averaging (iterations : ℚ) :=
  ⟨u0.Init m.Weights iterations, [], rfl, rfl, rfl,
    by simp [enterLoop, snapshots, AveragedStrategy.Init],
    fun f => by simp [enterLoop, snapshots, sumOfWeights_nil, weight_nil]⟩

/-- On an initialised model with its collaborators bound, `train` is the loop
followed by the strategy's `Finalize`, and the loop ends in a sound state. -/
theorem train_of_ready (m : LinearPerceptron F Inst DI) (xs : List DI)
    (dec : InstanceDecoder Inst DI) (iterations : ℤ) (w : SparseWeightVector F)
    (fe : FeatureExtractor F Inst) (up : UpdateStrategy F)
    (hW : m.Weights = some w) (hF : m.FeatFunc = some fe) (hU : m.Updater = some up) :
    m.train xs (some dec) iterations
        = finalizeStep (trainLoop (some dec) (enterLoop m up iterations) xs) ∧
      (trainLoop (some dec) (enterLoop m up iterations) xs).sound := by
  have hs := (trainLoop_of_sound dec xs _ (enterLoop_sound m up iterations w fe hW hF)).1
  refine ⟨?_, hs⟩
  simp only [LinearPerceptron.train, hW, hU, hs.1]

/-- The outcome of `train` with the averaged strategy on an initialised model. -/
theorem train_averaged (m : LinearPerceptron F Inst DI) (xs : List DI)
    (dec : InstanceDecoder Inst DI) (iterations : ℤ) (w : SparseWeightVector F)
    (fe : FeatureExtractor F Inst) (u0 : AveragedStrategy F)
    (hW : m.Weights = some w) (hF : m.FeatFunc = some fe)
    (hU : m.Updater = some (.Averaged u0)) :
    (m.train xs (some dec) iterations).panic = none ∧
    ∃ u acc, (trainLoop (some dec) (enterLoop m (.Averaged u0) iterations) xs).model.Updater
        = some (.Averaged u) ∧
      u.accumWeights = some acc ∧ u.P = (iterations : ℚ) ∧ u.N = (xs.length : ℚ) ∧
      (∀ f, weight acc f
        = sumOfWeights (liveVectors (some dec) (enterLoop m (.Averaged u0) iterations) xs) f) ∧
      (m.train xs (some dec) iterations).model.Weights
        = some (UpdateScalarDivide acc ((iterations : ℚ) * (xs.length : ℚ))) := by
  obtain ⟨htrain, hs⟩ := train_of_ready m xs dec iterations w fe _ hW hF hU
  obtain ⟨-, hsnap, -, hav⟩ :=
    trainLoop_of_sound dec xs _ (enterLoop_sound m (.Averaged u0) iterations w fe hW hF)
  obtain ⟨u, acc, hUp, hacc, hP, hN, hsum⟩ := hav _ (enterLoop_averaging m u0 iterations)
  have hsnap1 : snapshots (trainLoop (some dec) (enterLoop m (.Averaged u0) iterations) xs).calls
      = liveVectors (some dec) (enterLoop m (.Averaged u0) iterations) xs := by
    rw [hsnap]
    simp [enterLoop, snapshots]
  rw [hsnap1] at hN hsum
  rw [length_liveVectors] at hN
  refine ⟨?_, u, acc, hUp, hacc, hP, hN, hsum, ?_⟩
  · rw [htrain]
    simp only [finalizeStep, hUp]
    exact hs.1
  · rw [htrain]
    simp only [finalizeStep, hUp, UpdateStrategy.Finalize, AveragedStrategy.Finalize, hacc,
      Option.map_some', hP, hN]

end Loop

/-! ## Training with the averaged strategy (C5) -/

section AveragedTraining

variable {F Inst DI : Type} [DecidableEq F] [DecodedInstance DI Inst]

open DecodedInstance SparseWeightVector

/-- C5, as stated, fails.  With `Iterations = 2`, the averaged strategy, weights
`{f1: 1, f2: 2}` and a stream of one instance that the decoder gets right, the only
snapshot is `{f1: 1, f2: 2}`, whose mean has `f1: 1`, but `Train` ends with `f1: 1/2`. -/
theorem C5_counterexample :
    liveVectors (some agreeingDecoder)
        (enterLoop (scenarioModelWith (some [(Feat.f1, 1), (Feat.f2, 2)])
          (.Averaged zeroAveraged) agreeingDecoder 2) (.Averaged zeroAveraged) 2)
        [scenarioGold]
      = [some [(Feat.f1, 1), (Feat.f2, 2)]] ∧
    weight (nilRead ((scenarioModelWith (some [(Feat.f1, 1), (Feat.f2, 2)])
        (.Averaged zeroAveraged) agreeingDecoder 2).Train [scenarioGold]).model.Weights) Feat.f1
      = 1 / 2 ∧
    ¬ ∀ f, weight (nilRead ((scenarioModelWith (some [(Feat.f1, 1), (Feat.f2, 2)])
        (.Averaged zeroAveraged) agreeingDecoder 2).Train [scenarioGold]).model.Weights) f
      = sumOfWeights (liveVectors (some agreeingDecoder)
          (enterLoop (scenarioModelWith (some [(Feat.f1, 1), (Feat.f2, 2)])
            (.Averaged zeroAveraged) agreeingDecoder 2) (.Averaged zeroAveraged) 2)
          [scenarioGold]) f / (([scenarioGold].length : ℕ) : ℚ) := by
  have hlive : liveVectors (some agreeingDecoder)
      (enterLoop (scenarioModelWith (some [(Feat.f1, 1), (Feat.f2, 2)])
        (.Averaged zeroAveraged) agreeingDecoder 2) (.Averaged zeroAveraged) 2)
      [scenarioGold] = [some [(Feat.f1, 1), (Feat.f2, 2)]] := by
    rw [liveVectors_cons _ _ _ _ (by rfl)]
    rw [perInstance_correct_weights agreeingDecoder _ scenarioGold (by decide)]
    rfl
  obtain ⟨-, u, acc, -, -, -, -, hsum, hfin⟩ :=
    train_averaged (scenarioModelWith (some [(Feat.f1, 1), (Feat.f2, 2)])
      (.Averaged zeroAveraged) agreeingDecoder 2) [scenarioGold] agreeingDecoder 2
      [(Feat.f1, 1), (Feat.f2, 2)] scenarioExtractor zeroAveraged rfl rfl rfl
  have hval : weight (nilRead ((scenarioModelWith (some [(Feat.f1, 1), (Feat.f2, 2)])
      (.Averaged zeroAveraged) agreeingDecoder 2).Train [scenarioGold]).model.Weights) Feat.f1
      = 1 / 2 := by
    have hT : (scenarioModelWith (some [(Feat.f1, 1), (Feat.f2, 2)])
        (.Averaged zeroAveraged) agreeingDecoder 2).Train [scenarioGold]
        = (scenarioModelWith (some [(Feat.f1, 1), (Feat.f2, 2)])
          (.Averaged zeroAveraged) agreeingDecoder 2).train [scenarioGold]
            (some agreeingDecoder) 2 := rfl
    rw [hT, hfin]
    simp only [nilRead]
    rw [weight_UpdateScalarDivide, hsum, hlive]
    norm_num [sumOfWeights, weight, nilRead]
  refine ⟨hlive, hval, ?_⟩
  intro hall
  have h1 := hall Feat.f1
  rw [hval, hlive] at h1
  norm_num [sumOfWeights, weight, nilRead] at h1

/-- C5, amended.  For every initialised model with the averaged strategy, every non-zero
value of `Iterations` and every non-empty stream of `n` instances, after `Train` the
live weight of every feature equals the mean of that feature's weight over the `n`
live vectors (as they stood right after each instance) divided by `Iterations`, that is
the sum of the snapshots divided by `Iterations * n`; it is the mean itself when
`Iterations` is 1. -/
theorem C5_averaged_train (m : LinearPerceptron F Inst DI) (xs : List DI)
    (dec : InstanceDecoder Inst DI) (w : SparseWeightVector F) (fe : FeatureExtractor F Inst)
    (u0 : AveragedStrategy F)
    (hW : m.Weights = some w) (hF : m.FeatFunc = some fe)
    (hU : m.Updater = some (.Averaged u0)) (hD : m.Decoder = some dec)
    (hne : xs ≠ []) (hI : m.Iterations ≠ 0) :
    (m.Train xs).panic = none ∧
    ∃ wf, (m.Train xs).model.Weights = some wf ∧
      ∀ f, weight wf f
          = sumOfWeights (liveVectors (some dec) (enterLoop m (.Averaged u0) m.Iterations) xs) f
              / (xs.length : ℚ) / (m.Iterations : ℚ) ∧
        weight wf f * ((m.Iterations : ℚ) * (xs.length : ℚ))
          = sumOfWeights (liveVectors (some dec) (enterLoop m (.Averaged u0) m.Iterations) xs) f ∧
        (m.Iterations = 1 → weight wf f
          = sumOfWeights (liveVectors (some dec) (enterLoop m (.Averaged u0) m.Iterations) xs) f
              / (xs.length : ℚ)) := by
  obtain ⟨hpanic, u, acc, -, -, -, -, hsum, hfin⟩ :=
    train_averaged m xs dec m.Iterations w fe u0 hW hF hU
  have hT : m.Train xs = m.train xs (some dec) m.Iterations := by
    simp only [LinearPerceptron.Train, hD]
  rw [hT]
  refine ⟨hpanic, _, hfin, ?_⟩
  intro f
  have hn : (xs.length : ℚ) ≠ 0 := by
    have : 0 < xs.length := List.length_pos.2 hne
    exact_mod_cast this.ne'
  have hi : (m.Iterations : ℚ) ≠ 0 := by exact_mod_cast hI
  rw [weight_UpdateScalarDivide, hsum f]
  refine ⟨?_, ?_, ?_⟩
  · rw [div_div, mul_comm]
  · exact div_mul_cancel₀ _ (mul_ne_zero hi hn)
  · intro h1
    rw [h1]
    simp

/-- The amended C5 on the scenario model with `Iterations = 2` and one instance. -/
theorem C5_averaged_train_witness :
    ((scenarioModelWith (some [(Feat.f1, 1), (Feat.f2, 2)])
        (.Averaged zeroAveraged) agreeingDecoder 2).Train [scenarioGold]).panic = none ∧
    ∃ wf, ((scenarioModelWith (some [(Feat.f1, 1), (Feat.f2, 2)])
        (.Averaged zeroAveraged) agreeingDecoder 2).Train [scenarioGold]).model.Weights = some wf ∧
      ∀ f, weight wf f
          = sumOfWeights (liveVectors (some agreeingDecoder)
              (enterLoop (scenarioModelWith (some [(Feat.f1, 1), (Feat.f2, 2)])
                (.Averaged zeroAveraged) agreeingDecoder 2) (.Averaged zeroAveraged) 2)
              [scenarioGold]) f / ((1 : ℕ) : ℚ) / ((2 : ℤ) : ℚ) ∧
        weight wf f * (((2 : ℤ) : ℚ) * ((1 : ℕ) : ℚ))
          = sumOfWeights (liveVectors (some agreeingDecoder)
              (enterLoop (scenarioModelWith (some [(Feat.f1, 1), (Feat.f2, 2)])
                (.Averaged zeroAveraged) agreeingDecoder 2) (.Averaged zeroAveraged) 2)
              [scenarioGold]) f ∧
        ((2 : ℤ) = 1 → weight wf f
          = sumOfWeights (liveVectors (some agreeingDecoder)
              (enterLoop (scenarioModelWith (some [(Feat.f1, 1), (Feat.f2, 2)])
                (.Averaged zeroAveraged) agreeingDecoder 2) (.Averaged zeroAveraged) 2)
              [scenarioGold]) f / ((1 : ℕ) : ℚ)) :=
  C5_averaged_train (scenarioModelWith (some [(Feat.f1, 1), (Feat.f2, 2)])
    (.Averaged zeroAveraged) agreeingDecoder 2) [scenarioGold] agreeingDecoder
    [(Feat.f1, 1), (Feat.f2, 2)] scenarioExtractor zeroAveraged rfl rfl rfl rfl
    (by decide) (by decide)

end AveragedTraining

/-! ## The trivial strategy (C6) -/

section Trivial

variable {F Inst DI : Type} [DecidableEq F] [DecodedInstance DI Inst]

open DecodedInstance SparseWeightVector

omit [DecodedInstance DI Inst] in
theorem updateHook_trivial (r : TrainRun F Inst DI) (u : TrivialStrategy)
    (h : r.model.Updater = some (.Trivial u)) :
    (updateHook r).model.Updater = some (.Trivial u) := by
  unfold updateHook
  split
  · exact h
  · simp only [h, UpdateStrategy.Update, TrivialStrategy.Update, Except.map]

theorem perInstance_trivial (decoder : Option (InstanceDecoder Inst DI))
    (r : TrainRun F Inst DI) (inst : DI) (u : TrivialStrategy)
    (h : r.model.Updater = some (.Trivial u)) :
    (perInstance decoder r inst).model.Updater = some (.Trivial u) := by
  cases decoder with
  | none => exact h
  | some dec =>
      simp only [perInstance]
      apply updateHook_trivial
      cases hEq : Equals inst (dec.Decode (GetInstance inst) r.model.asModel)
      · simp only [Bool.not_false, if_true]
        rw [(correction_frame _ inst _).2.2.2.1]
        exact h
      · simp only [Bool.not_true, Bool.false_eq_true, if_false]
        exact h

theorem trainLoop_trivial (decoder : Option (InstanceDecoder Inst DI)) (xs : List DI)
    (r : TrainRun F Inst DI) (u : TrivialStrategy)
    (h : r.model.Updater = some (.Trivial u)) :
    (trainLoop decoder r xs).model.Updater = some (.Trivial u) := by
  induction xs generalizing r with
  | nil => exact h
  | cons x rest ih =>
      have h1 : (perInstance decoder { r with consumed := r.consumed + 1 } x).model.Updater
          = some (.Trivial u) := perInstance_trivial decoder _ x u h
      simp only [trainLoop]
      split
      · exact h1
      · exact ih _ h1

/-- C6.  `TrivialStrategy.Finalize` returns its argument, `Init` and `Update` do nothing
(they return the strategy as it was, never fail, and have no access to write the
vector).  Consequently, on a model with the trivial strategy, `train` enters the loop
with the model as it was and ends with the weight vector that the loop left, which
for a non-empty stream is the live vector after the last instance's pass. -/
theorem C6_trivial_identity (m : LinearPerceptron F Inst DI) (xs : List DI)
    (decoder : Option (InstanceDecoder Inst DI)) (iterations : ℤ) (w : SparseWeightVector F)
    (u : TrivialStrategy) (hW : m.Weights = some w) (hU : m.Updater = some (.Trivial u)) :
    (∀ (t : TrivialStrategy) (v : Option (SparseWeightVector F)), t.Finalize v = (v, t)) ∧
    (∀ (t : TrivialStrategy) (v : Option (SparseWeightVector F)) (k : ℤ), t.Init v k = t) ∧
    (∀ (t : TrivialStrategy) (v : Option (SparseWeightVector F)), t.Update v = .ok t) ∧
    (enterLoop m (.Trivial u) iterations).model = m ∧
    (m.train xs decoder iterations).model.Weights
      = (trainLoop decoder (enterLoop m (.Trivial u) iterations) xs).model.Weights ∧
    (xs ≠ [] → (liveVectors decoder (enterLoop m (.Trivial u) iterations) xs).getLast?
      = some (m.train xs decoder iterations).model.Weights) ∧
    (xs = [] → (m.train xs decoder iterations).model.Weights = some w) := by
  have hloop := trainLoop_trivial decoder xs (enterLoop m (.Trivial u) iterations) u rfl
  have htrain : (m.train xs decoder iterations).model.Weights
      = (trainLoop decoder (enterLoop m (.Trivial u) iterations) xs).model.Weights := by
    simp only [LinearPerceptron.train, hW, hU]
    split
    · rfl
    · simp only [finalizeStep, hloop, UpdateStrategy.Finalize, TrivialStrategy.Finalize]
  refine ⟨fun _ _ => rfl, fun _ _ _ => rfl, fun _ _ => rfl, ?_, htrain, ?_, ?_⟩
  · cases m
    simp only at hU
    subst hU
    rfl
  · intro hne
    rw [htrain]
    exact getLast_liveVectors decoder _ xs hne
  · intro hnil
    subst hnil
    rw [htrain]
    exact hW

/-- C6 on the end-to-end scenario with the trivial strategy. -/
theorem C6_trivial_identity_witness :
    ((scenarioModel (.Trivial {}) 1).train [scenarioGold] (some scenarioDecoder) 1).model.Weights
      = (trainLoop (some scenarioDecoder)
          (enterLoop (scenarioModel (.Trivial {}) 1) (.Trivial {}) 1)
          [scenarioGold]).model.Weights :=
  (C6_trivial_identity (scenarioModel (.Trivial {}) 1) [scenarioGold] (some scenarioDecoder) 1
    [(Feat.f1, 1), (Feat.f2, 2)] {} rfl rfl).2.2.2.2.1

end Trivial

/-! ## The per-instance hook (C7) -/

section Hook

variable {F Inst DI : Type} [DecidableEq F] [DecodedInstance DI Inst]

open DecodedInstance SparseWeightVector

omit [DecidableEq F] [DecodedInstance DI Inst] in
/-- The last statement of `train` in a sound run. -/
theorem finalizeStep_of_sound (r : TrainRun F Inst DI) (h : r.sound) :
    (finalizeStep r).panic = none ∧
    (finalizeStep r).calls = r.calls ++ [.UpdaterFinalize] ∧
    (finalizeStep r).consumed = r.consumed := by
  obtain ⟨hP, -, -, up, hU, -⟩ := h
  refine ⟨?_, ?_, ?_⟩
  · simp only [finalizeStep, hU]
    exact hP
  · simp only [finalizeStep, hU]
  · simp only [finalizeStep, hU]

/-- C7.  On an initialised model with its collaborators bound, for every stream of `n`
instances and every decoder, `train` returns without panic having taken all `n`
instances and called the strategy's `Update` exactly `n` times: after the first `k`
instances it has been called `k` times, and the `k`-th call is handed the live vector
as it stands after the `k`-th instance, whether or not that instance was a mistake.
With the averaged strategy, when `Finalize` is called `N` is `n` and `P` is the
iteration count, and the final weights are the accumulator divided by
`iterations * n`. -/
theorem C7_update_once_per_instance (m : LinearPerceptron F Inst DI) (xs : List DI)
    (dec : InstanceDecoder Inst DI) (iterations : ℤ) (w : SparseWeightVector F)
    (fe : FeatureExtractor F Inst) (up : UpdateStrategy F)
    (hW : m.Weights = some w) (hF : m.FeatFunc = some fe) (hU : m.Updater = some up) :
    (m.train xs (some dec) iterations).panic = none ∧
    (m.train xs (some dec) iterations).consumed = xs.length ∧
    (m.train xs (some dec) iterations).calls.countP Call.isUpdate = xs.length ∧
    (∀ k, k ≤ xs.length →
      (trainLoop (some dec) (enterLoop m up iterations) (xs.take k)).calls.countP Call.isUpdate
        = k) ∧
    snapshots (m.train xs (some dec) iterations).calls
      = liveVectors (some dec) (enterLoop m up iterations) xs ∧
    (∀ u0, up = .Averaged u0 →
      ∃ u acc, (trainLoop (some dec) (enterLoop m up iterations) xs).model.Updater
          = some (.Averaged u) ∧
        u.N = (xs.length : ℚ) ∧ u.P = (iterations : ℚ) ∧ u.accumWeights = some acc ∧
        (m.train xs (some dec) iterations).model.Weights
          = some (UpdateScalarDivide acc ((iterations : ℚ) * (xs.length : ℚ)))) := by
  obtain ⟨htrain, hs⟩ := train_of_ready m xs dec iterations w fe up hW hF hU
  have h0 := enterLoop_sound m up iterations w fe hW hF
  obtain ⟨-, hsnap, hcons, -⟩ := trainLoop_of_sound dec xs _ h0
  obtain ⟨hfP, hfC, hfN⟩ := finalizeStep_of_sound _ hs
  have hsnapT : snapshots (m.train xs (some dec) iterations).calls
      = liveVectors (some dec) (enterLoop m up iterations) xs := by
    rw [htrain, hfC, snapshots_append, hsnap]
    simp [enterLoop, snapshots]
  refine ⟨by rw [htrain]; exact hfP, ?_, ?_, ?_, hsnapT, ?_⟩
  · rw [htrain, hfN, hcons]
    simp [enterLoop]
  · rw [← length_snapshots, hsnapT, length_liveVectors]
  · intro k hk
    obtain ⟨-, hsnapk, -, -⟩ := trainLoop_of_sound dec (xs.take k) _ h0
    rw [← length_snapshots, hsnapk]
    simp only [List.length_append, length_liveVectors, List.length_take]
    simp only [enterLoop, snapshots, List.length_nil]
    omega
  · intro u0 hu0
    subst hu0
    obtain ⟨-, u, acc, hUp, hacc, hP, hN, -, hfin⟩ :=
      train_averaged m xs dec iterations w fe u0 hW hF hU
    exact ⟨u, acc, hUp, hN, hP, hacc, hfin⟩

/-- C7 on the scenario: two instances, both mistakes, averaged strategy. -/
theorem C7_update_once_per_instance_witness :
    ((scenarioModel (.Averaged zeroAveraged) 1).train [scenarioGold, scenarioGold]
        (some scenarioDecoder) 1).calls.countP Call.isUpdate
      = [scenarioGold, scenarioGold].length :=
  (C7_update_once_per_instance (scenarioModel (.Averaged zeroAveraged) 1)
    [scenarioGold, scenarioGold] scenarioDecoder 1 [(Feat.f1, 1), (Feat.f2, 2)]
    scenarioExtractor (.Averaged zeroAveraged) rfl rfl rfl).2.2.1

end Hook

/-! ## The guard of `train` (C8) -/

section Guard

variable {F Inst DI : Type} [DecidableEq F] [DecodedInstance DI Inst]

open DecodedInstance SparseWeightVector

/-- A failing `Update` is a write to a nil accumulator. -/
theorem UpdateStrategy.Update_error (up : UpdateStrategy F)
    (w : Option (SparseWeightVector F)) (p : Panic) (h : up.Update w = .error p) :
    p = .nilMapWrite := by
  cases up with
  | Trivial u => cases h
  | Averaged u =>
      simp only [UpdateStrategy.Update, AveragedStrategy.Update] at h
      split at h
      · cases h
      · split at h
        · cases h
        · cases h
          rfl

omit [DecodedInstance DI Inst] in
theorem updateHook_guard (r : TrainRun F Inst DI)
    (h : (updateHook r).panic = some .modelNotInitialized) :
    r.panic = some .modelNotInitialized := by
  unfold updateHook at h
  split at h
  · exact h
  · split at h
    · cases h
    · split at h
      · rename_i p hupd
        have hp := UpdateStrategy.Update_error _ _ p hupd
        subst hp
        cases h
      · exact h

theorem correction_guard (r : TrainRun F Inst DI) (inst decodedInstance : DI)
    (h : (correction r inst decodedInstance).panic = some .modelNotInitialized) :
    r.panic = some .modelNotInitialized := by
  unfold correction at h
  split at h
  · cases h
  · split at h <;> exact h

theorem perInstance_guard (decoder : Option (InstanceDecoder Inst DI))
    (r : TrainRun F Inst DI) (inst : DI)
    (h : (perInstance decoder r inst).panic = some .modelNotInitialized) :
    r.panic = some .modelNotInitialized := by
  cases decoder with
  | none => cases h
  | some dec =>
      simp only [perInstance] at h
      have h2 := updateHook_guard _ h
      split at h2
      · have h3 := correction_guard _ _ _ h2
        exact h3
      · exact h2

theorem trainLoop_guard (decoder : Option (InstanceDecoder Inst DI)) (xs : List DI)
    (r : TrainRun F Inst DI)
    (h : (trainLoop decoder r xs).panic = some .modelNotInitialized) :
    r.panic = some .modelNotInitialized := by
  induction xs generalizing r with
  | nil => exact h
  | cons x rest ih =>
      simp only [trainLoop] at h
      split at h
      · have h1 := perInstance_guard decoder _ x h
        exact h1
      · have h1 := perInstance_guard decoder _ x (ih _ h)
        exact h1

/-- C8.  For every model whose weight vector is nil and every stream, `Train` panics
with "Model not initialized" having called no collaborator and taken no instance, and
the model is left exactly as it was; and when the weight vector is allocated, `Train`
never panics with that value. -/
theorem C8_train_guard (m : LinearPerceptron F Inst DI) (xs : List DI) :
    (m.Weights = none →
      m.Train xs = { model := m, panic := some .modelNotInitialized, consumed := 0, calls := [] }) ∧
    Panic.message .modelNotInitialized = "Model not initialized" ∧
    (∀ w, m.Weights = some w → (m.Train xs).panic ≠ some .modelNotInitialized) := by
  refine ⟨?_, rfl, ?_⟩
  · intro hW
    simp only [LinearPerceptron.Train, LinearPerceptron.train, hW]
  · intro w hW h
    simp only [LinearPerceptron.Train, LinearPerceptron.train, hW] at h
    split at h
    · cases h
    · split at h
      · have h0 := trainLoop_guard _ _ _ h
        cases h0
      · rename_i hnone
        unfold finalizeStep at h
        split at h
        · cases h
        · simp only [hnone] at h
          cases h

/-- C8 on the scenario's collaborators around a nil weight vector. -/
theorem C8_train_guard_witness :
    (scenarioModelWith none (.Trivial {}) scenarioDecoder 1).Train [scenarioGold]
      = { model := scenarioModelWith none (.Trivial {}) scenarioDecoder 1,
          panic := some .modelNotInitialized, consumed := 0, calls := [] } :=
  (C8_train_guard (scenarioModelWith none (.Trivial {}) scenarioDecoder 1) [scenarioGold]).1 rfl

end Guard

/-! ## Scoring (C9, C10) -/

section Scoring

variable {F Inst DI : Type} [DecidableEq F] [DecodedInstance DI Inst]

open DecodedInstance SparseWeightVector

/-- `Score` has no guard: with a nil weight vector and an extractor bound it
returns 0. -/
theorem Score_of_nil_weights (m : LinearPerceptron F Inst DI) (i : DI)
    (fe : FeatureExtractor F Inst) (hW : m.Weights = none) (hF : m.FeatFunc = some fe) :
    m.Score i = (.ok 0, m) := by
  simp only [LinearPerceptron.Score, hF, hW, nilRead, DotProductFeatures_nil]

/-- C9, at the failing input.  The model has a nil weight vector and the scenario's
extractor bound: `Score` of the gold instance returns 0 instead of failing, while
`Train` on the same model panics with "Model not initialized". -/
theorem C9_score_without_guard :
    (scenarioModelWith none (.Trivial {}) scenarioDecoder 1).Weights = none ∧
    ((scenarioModelWith none (.Trivial {}) scenarioDecoder 1).Score scenarioGold).1 = .ok 0 ∧
    ((scenarioModelWith none (.Trivial {}) scenarioDecoder 1).Train [scenarioGold]).panic
      = some .modelNotInitialized := by
  refine ⟨rfl, ?_, rfl⟩
  rw [Score_of_nil_weights _ scenarioGold scenarioExtractor rfl rfl]

/-- C10.  For every initialised model (weight vector allocated, extractor bound) and
every instance `i`, `Score(i)` returns the sum, over the features that the extractor
gives for `i.GetInstance()`, of the current weight of the feature, a feature without
an entry counting 0; and the model after the call is the model before it. -/
theorem C10_score_dot_product (m : LinearPerceptron F Inst DI) (i : DI)
    (w : SparseWeightVector F) (fe : FeatureExtractor F Inst)
    (hW : m.Weights = some w) (hF : m.FeatFunc = some fe) :
    (m.Score i).1 = .ok (((fe.Features (GetInstance i)).map (fun f => weight w f)).sum) ∧
    (∀ f, f ∉ w.map Prod.fst → weight w f = 0) ∧
    (m.Score i).2 = m := by
  refine ⟨?_, fun f hf => weight_eq_zero_of_not_mem w f hf, ?_⟩
  · simp only [LinearPerceptron.Score, hF, hW, nilRead, DotProductFeatures]
  · simp only [LinearPerceptron.Score, hF]

/-- C10 on the scenario: the gold instance has the features `{f1, f3}` and scores
`1 + 0`. -/
theorem C10_score_dot_product_witness :
    ((scenarioModel (.Trivial {}) 1).Score scenarioGold).1
        = .ok (([Feat.f1, Feat.f3].map
            (fun f => weight [(Feat.f1, (1 : ℚ)), (Feat.f2, 2)] f)).sum) ∧
      ([Feat.f1, Feat.f3].map (fun f => weight [(Feat.f1, (1 : ℚ)), (Feat.f2, 2)] f)).sum = 1 :=
  ⟨(C10_score_dot_product (scenarioModel (.Trivial {}) 1) scenarioGold
      [(Feat.f1, 1), (Feat.f2, 2)] scenarioExtractor rfl rfl).1,
    by simp [weight]⟩

end Scoring

/-! ## Persistence (C11) -/

section PersistenceFacts

variable {F Inst DI B E : Type}

open SparseWeightVector

/-- C11.  For every model, every encoding and every input: if decoding the input fails,
`Read` panics with the decoder's error and the model is exactly what it was; if decoding
succeeds, `Read` returns with `Weights` holding the decoded vector, which does not depend
on the model read into (no weight of the previous vector survives), and `FeatFunc`,
`Updater`, `Decoder` and `Iterations` are what they were. -/
theorem C11_read_atomic (m : LinearPerceptron F Inst DI) (c : Codec F B E) (reader : B) :
    (∀ err, c.Decode reader = .error err → m.Read c reader = (m, some err)) ∧
    (∀ v, c.Decode reader = .ok v →
      m.Read c reader =
        ({ Weights := some v, FeatFunc := m.FeatFunc, Updater := m.Updater,
           Decoder := m.Decoder, Iterations := m.Iterations }, none) ∧
      ∀ m1 : LinearPerceptron F Inst DI,
        (m1.Read c reader).1.Weights = (m.Read c reader).1.Weights) := by
  constructor
  · intro err h
    simp only [LinearPerceptron.Read, h]
  · intro v h
    constructor
    · simp only [LinearPerceptron.Read, h]
    · intro m1
      simp only [LinearPerceptron.Read, h]

/-- C11 on the scenario model: a truncated input leaves the model as it was, a complete
one replaces the weights `{f1: 1, f2: 2}` by the decoded `{f3: 5}`. -/
theorem C11_read_atomic_witness :
    (scenarioModel (.Trivial {}) 1).Read entriesCodec none
        = (scenarioModel (.Trivial {}) 1, some "unexpected EOF") ∧
    ((scenarioModel (.Trivial {}) 1).Read entriesCodec (some [(Feat.f3, 5)])).1.Weights
        = some [(Feat.f3, 5)] :=
  ⟨(C11_read_atomic (scenarioModel (.Trivial {}) 1) entriesCodec none).1 _ rfl,
    congrArg (fun r => r.1.Weights)
      ((C11_read_atomic (scenarioModel (.Trivial {}) 1) entriesCodec
        (some [(Feat.f3, 5)])).2 _ rfl).1⟩

end PersistenceFacts

/-! ## Re-initialising the averaged strategy (C13) -/

section Reinit

variable {F : Type} [DecidableEq F]

open SparseWeightVector

/-- C13.  For every prior state of an averaged strategy (any `P`, any `N`, any
accumulator) and every argument vector, after `Init(w, I)` the counter `N` is 0, `P` is
`I` and the accumulator is allocated and empty; the state is the one `Init` leaves on a
zero-valued strategy, so every following sequence of `Update` calls, and the `Finalize`
after it, give the same result on both. -/
theorem C13_averaged_reinit (u : AveragedStrategy F) (w w0 : Option (SparseWeightVector F))
    (I : ℤ) :
    (u.Init w I).N = 0 ∧ (u.Init w I).P = (I : ℚ) ∧ (u.Init w I).accumWeights = some [] ∧
    u.Init w I = (AveragedStrategy.zeroValue : AveragedStrategy F).Init w0 I ∧
    (∀ ws, (u.Init w I).updateAll ws
      = ((AveragedStrategy.zeroValue : AveragedStrategy F).Init w0 I).updateAll ws) ∧
    (∀ ws wfin u1, (u.Init w I).updateAll ws = .ok u1 →
      ∃ u2, ((AveragedStrategy.zeroValue : AveragedStrategy F).Init w0 I).updateAll ws = .ok u2 ∧
        u1.Finalize wfin = u2.Finalize wfin) :=
  ⟨rfl, rfl, rfl, rfl, fun _ => rfl, fun _ _ u1 h => ⟨u1, h, rfl⟩⟩

/-- C13 on a strategy left by an earlier run: `P = 7`, `N = 3` and an accumulator
holding `{f1: 4}`. -/
theorem C13_averaged_reinit_witness :
    ∃ u2, ((AveragedStrategy.zeroValue : AveragedStrategy Feat).Init none 2).updateAll
        [some [(Feat.f1, 1)]] = .ok u2 ∧
      (AveragedStrategy.mk 2 1 (some [(Feat.f1, (1 : ℚ))])).Finalize none = u2.Finalize none :=
  (C13_averaged_reinit (AveragedStrategy.mk 7 3 (some [(Feat.f1, (4 : ℚ))])) none none 2).2.2.2.2.2
    [some [(Feat.f1, 1)]] none (AveragedStrategy.mk 2 1 (some [(Feat.f1, (1 : ℚ))]))
    (by
      simp [AveragedStrategy.updateAll, AveragedStrategy.Init, AveragedStrategy.Update,
        UpdateAdd, keys, nilRead, weight, SparseWeightVector.set])

end Reinit

/-! ## Equality of decoded instances (C14) -/

section DecodedEquality

variable {I O X : Type}

open Types

/-- C14.  For every `Decoded` value `d` and every non-nil `*Decoded` argument `other`,
`d.Equal(other)` returns true exactly when `d.InstanceVal.Equal(other.InstanceVal)` and
`d.DecodedVal.Equal(other.DecodedVal)` both return true; when both fields of `d` are
set it returns the conjunction of the two; and `d.Equal(nil)` returns false. -/
theorem C14_decoded_equal (eq : Equalities I O) (d other : Decoded I O) :
    ((d.Equal eq (.decoded (some other) : Equaler I O X) = .ok true) ↔
      ∃ i o, d.InstanceVal = some i ∧ d.DecodedVal = some o ∧
        eq.instanceEqual i other.InstanceVal = true ∧
        eq.decodedEqual o other.DecodedVal = true) ∧
    (∀ i o, d.InstanceVal = some i → d.DecodedVal = some o →
      d.Equal eq (.decoded (some other) : Equaler I O X)
        = .ok (eq.instanceEqual i other.InstanceVal && eq.decodedEqual o other.DecodedVal)) ∧
    d.Equal eq (.nil : Equaler I O X) = .ok false := by
  refine ⟨?_, ?_, rfl⟩
  · constructor
    · intro h
      cases hi : d.InstanceVal with
      | none => simp [Decoded.Equal, hi] at h
      | some i =>
          cases ho : d.DecodedVal with
          | none => simp [Decoded.Equal, hi, ho] at h
          | some o =>
              simp only [Decoded.Equal, hi, ho, Except.ok.injEq, Bool.and_eq_true] at h
              exact ⟨i, o, rfl, rfl, h.1, h.2⟩
    · rintro ⟨i, o, hi, ho, h1, h2⟩
      simp only [Decoded.Equal, hi, ho, h1, h2, Bool.and_self]
  · intro i o hi ho
    simp only [Decoded.Equal, hi, ho]

/-- C14 on numbered instances: same instance, different outputs. -/
theorem C14_decoded_equal_witness :
    (Decoded.mk (some 1) (some 2)).Equal numberEqualities
        (.decoded (some (Decoded.mk (some 1) (some 3))) : Equaler ℕ ℕ Unit)
      = .ok (numberEqualities.instanceEqual 1 (some 1) && numberEqualities.decodedEqual 2 (some 3)) :=
  (C14_decoded_equal numberEqualities (Decoded.mk (some 1) (some 2))
    (Decoded.mk (some 1) (some 3))).2.1 1 2 rfl rfl

end DecodedEquality

/-! ## The add/subtract law and the shape of the correction (C15, C16) -/

section Correction

variable {F Inst DI : Type} [DecidableEq F] [DecodedInstance DI Inst]

open DecodedInstance SparseWeightVector

/-- C15.  In exact arithmetic, for every weight vector `w` and every vector `v` given
as a value of its own, `UpdateAdd(v)` followed by `UpdateSubtract(v)` leaves the weight
of every feature in `w` as it was; each operation's result is the receiver after the
update, which is what lets `train` chain them.  (If the argument is the receiver
itself, the second operation sees the doubled weights and leaves 0.) -/
theorem C15_add_then_subtract (w v : SparseWeightVector F) :
    (∀ f, weight (UpdateSubtract (UpdateAdd w v) v) f = weight w f) ∧
    (∀ f, weight (UpdateAdd w v) f = weight w f + weight v f) ∧
    (∀ f, weight (UpdateSubtract w v) f = weight w f - weight v f) ∧
    (∀ f, weight (UpdateSubtract (UpdateAdd w w) (UpdateAdd w w)) f = 0) := by
  refine ⟨fun f => ?_, fun f => weight_UpdateAdd w v f, fun f => weight_UpdateSubtract w v f,
    fun f => ?_⟩
  · rw [weight_UpdateSubtract, weight_UpdateAdd]
    ring
  · rw [weight_UpdateSubtract]
    ring

theorem mem_map_fst_set (v : SparseWeightVector F) (f : F) (x : ℚ) (g : F) :
    g ∈ (SparseWeightVector.set v f x).map Prod.fst ↔ g = f ∨ g ∈ v.map Prod.fst := by
  induction v with
  | nil => simp [SparseWeightVector.set]
  | cons e rest ih =>
      obtain ⟨k, y⟩ := e
      by_cases hk : k = f
      · subst hk
        simp [SparseWeightVector.set]
      · simp only [SparseWeightVector.set, hk, if_false, List.map_cons, List.mem_cons, ih]
        tauto

theorem mem_keys_set (v : SparseWeightVector F) (f : F) (x : ℚ) (g : F) :
    g ∈ keys (SparseWeightVector.set v f x) ↔ g = f ∨ g ∈ keys v := by
  simp only [keys, List.mem_dedup]
  exact mem_map_fst_set v f x g

/-- The keys after a key-by-key update over the key list `ks`. -/
theorem mem_keys_foldl_set (h : SparseWeightVector F → F → ℚ) (ks : List F)
    (v : SparseWeightVector F) (g : F) :
    g ∈ keys (ks.foldl (fun acc k => SparseWeightVector.set acc k (h acc k)) v)
      ↔ g ∈ ks ∨ g ∈ keys v := by
  induction ks generalizing v with
  | nil => simp
  | cons k rest ih =>
      rw [List.foldl_cons, ih, mem_keys_set, List.mem_cons]
      tauto

theorem mem_keys_UpdateAdd (v other : SparseWeightVector F) (g : F) :
    g ∈ keys (UpdateAdd v other) ↔ g ∈ keys other ∨ g ∈ keys v :=
  mem_keys_foldl_set (fun acc k => weight acc k + weight other k) (keys other) v g

theorem mem_keys_UpdateSubtract (v other : SparseWeightVector F) (g : F) :
    g ∈ keys (UpdateSubtract v other) ↔ g ∈ keys other ∨ g ∈ keys v :=
  mem_keys_foldl_set (fun acc k => weight acc k - weight other k) (keys other) v g

theorem mem_keys_FeatureWeights (v : SparseWeightVector F) (features : List F) (g : F) :
    g ∈ keys (FeatureWeights v features) ↔ g ∈ keys v ∧ g ∈ features := by
  simp only [keys, List.mem_dedup, FeatureWeights, List.mem_map, List.mem_filter,
    decide_eq_true_eq]
  constructor
  · rintro ⟨e, ⟨he, hf⟩, rfl⟩
    exact ⟨⟨e, he, rfl⟩, hf⟩
  · rintro ⟨⟨e, he, rfl⟩, hf⟩
    exact ⟨e, ⟨he, hf⟩, rfl⟩

/-- C16.  For every weight vector `w` and every mistaken instance with gold features `G`
and decoded features `D`, the pass of `train` ends with `w1 = w + w|G - w|D`, both
sub-vectors being restrictions of the pre-update `w`: for every feature `f`,
`w1(f) = w(f) * (1 + [f in G] - [f in D])`; a feature in both lists or in neither keeps
its weight; and a feature outside both lists is a key afterwards exactly when it was one
before. -/
theorem C16_correction_shape (dec : InstanceDecoder Inst DI) (r : TrainRun F Inst DI) (inst : DI)
    (w : SparseWeightVector F) (fe : FeatureExtractor F Inst) (G D : List F)
    (hW : r.model.Weights = some w) (hF : r.model.FeatFunc = some fe)
    (hNe : Equals inst (dec.Decode (GetInstance inst) r.model.asModel) = false)
    (hG : G = fe.Features (GetInstance inst))
    (hD : D = fe.Features (GetInstance (dec.Decode (GetInstance inst) r.model.asModel))) :
    ∃ w1, (perInstance (some dec) r inst).model.Weights = some w1 ∧
      w1 = UpdateSubtract (UpdateAdd w (FeatureWeights w G)) (FeatureWeights w D) ∧
      (∀ f, weight (FeatureWeights w G) f = if f ∈ G then weight w f else 0) ∧
      (∀ f, weight (FeatureWeights w D) f = if f ∈ D then weight w f else 0) ∧
      (∀ f, weight w1 f = weight w f + weight (FeatureWeights w G) f
        - weight (FeatureWeights w D) f) ∧
      (∀ f, weight w1 f
        = weight w f * (1 + (if f ∈ G then 1 else 0) - (if f ∈ D then 1 else 0))) ∧
      (∀ f, (f ∈ G ↔ f ∈ D) → weight w1 f = weight w f) ∧
      (∀ f, f ∉ G → f ∉ D → ((f ∈ keys w1 ↔ f ∈ keys w) ∧ weight w1 f = weight w f)) := by
  subst hG hD
  refine ⟨_, perInstance_mistake_weights dec r inst w fe hW hF hNe, rfl,
    fun f => weight_FeatureWeights w _ f, fun f => weight_FeatureWeights w _ f, ?_, ?_, ?_, ?_⟩
  · intro f
    rw [weight_UpdateSubtract, weight_UpdateAdd]
  · intro f
    rw [weight_corrected]
    split_ifs <;> ring
  · intro f hiff
    rw [weight_corrected]
    by_cases hg : f ∈ fe.Features (GetInstance inst)
    · rw [if_pos hg, if_pos (hiff.1 hg)]
      ring
    · rw [if_neg hg, if_neg (fun hd => hg (hiff.2 hd))]
      ring
  · intro f hg hd
    constructor
    · rw [mem_keys_UpdateSubtract, mem_keys_UpdateAdd, mem_keys_FeatureWeights,
        mem_keys_FeatureWeights]
      tauto
    · rw [weight_corrected, if_neg hg, if_neg hd]
      ring

/-- C16 on the end-to-end scenario: `f1` doubles, `f2` is cancelled. -/
theorem C16_correction_shape_witness :
    ∃ w1, (perInstance (some scenarioDecoder) (startRun (scenarioModel (.Trivial {}) 1))
        scenarioGold).model.Weights = some w1 ∧
      w1 = UpdateSubtract
        (UpdateAdd [(Feat.f1, 1), (Feat.f2, 2)]
          (FeatureWeights [(Feat.f1, 1), (Feat.f2, 2)] [Feat.f1, Feat.f3]))
        (FeatureWeights [(Feat.f1, 1), (Feat.f2, 2)] [Feat.f2]) :=
  let ⟨w1, h1, h2, _⟩ := C16_correction_shape scenarioDecoder
    (startRun (scenarioModel (.Trivial {}) 1)) scenarioGold [(Feat.f1, 1), (Feat.f2, 2)]
    scenarioExtractor [Feat.f1, Feat.f3] [Feat.f2] rfl rfl (by decide) (by decide) (by decide)
  ⟨w1, h1, h2⟩

end Correction

/-! ## Initialisation and zero weights (C17, C18) -/

section Zero

variable {F Inst DI : Type} [DecidableEq F] [DecodedInstance DI Inst]

open DecodedInstance SparseWeightVector

/-- C17.  For every model state, `Init(fe, up)` with an extractor `fe` returns with the
weight vector allocated and empty, so that every feature has weight 0 and `Score` returns
0 for every instance; `FeatFunc` is `fe`, `Updater` is `up`, and `Decoder` and
`Iterations` are what they were before the call. -/
theorem C17_init_postcondition (m : LinearPerceptron F Inst DI) (fe : FeatureExtractor F Inst)
    (up : Option (UpdateStrategy F)) :
    m.Init (some fe) up =
      ({ Weights := some [], FeatFunc := some fe, Updater := up, Decoder := m.Decoder,
         Iterations := m.Iterations }, none) ∧
    (∀ f, weight (nilRead (m.Init (some fe) up).1.Weights) f = 0) ∧
    (∀ i, ((m.Init (some fe) up).1.Score i).1 = .ok 0) := by
  refine ⟨rfl, fun f => rfl, fun i => ?_⟩
  simp only [LinearPerceptron.Init, LinearPerceptron.Score, nilRead, DotProductFeatures_nil]

/-- One pass of the loop keeps a zero weight at zero, whatever the run state. -/
theorem perInstance_zero (decoder : Option (InstanceDecoder Inst DI)) (r : TrainRun F Inst DI)
    (inst : DI) (f : F) (h : weight (nilRead r.model.Weights) f = 0) :
    weight (nilRead (perInstance decoder r inst).model.Weights) f = 0 := by
  rw [perInstance_weights]
  cases decoder with
  | none => exact h
  | some dec =>
      simp only
      split
      · exact h
      · unfold correction
        cases hF : r.model.FeatFunc with
        | none => exact h
        | some fe =>
            cases hW : r.model.Weights with
            | none =>
                simp only [hW]
                rfl
            | some w =>
                rw [hW] at h
                simp only [nilRead] at h
                simp only [hW, nilRead]
                rw [weight_corrected, h]
                split_ifs <;> ring

/-- The loop keeps a zero weight at zero. -/
theorem trainLoop_zero (decoder : Option (InstanceDecoder Inst DI)) (xs : List DI)
    (r : TrainRun F Inst DI) (f : F) (h : weight (nilRead r.model.Weights) f = 0) :
    weight (nilRead (trainLoop decoder r xs).model.Weights) f = 0 := by
  induction xs generalizing r with
  | nil => exact h
  | cons x rest ih =>
      have h1 : weight (nilRead
          (perInstance decoder { r with consumed := r.consumed + 1 } x).model.Weights) f = 0 :=
        perInstance_zero decoder _ x f h
      simp only [trainLoop]
      split
      · exact h1
      · exact ih _ h1

/-- The collaborators and `Iterations` are the same after the loop. -/
theorem trainLoop_frame (decoder : Option (InstanceDecoder Inst DI)) (xs : List DI)
    (r : TrainRun F Inst DI) :
    (trainLoop decoder r xs).model.FeatFunc = r.model.FeatFunc ∧
    (trainLoop decoder r xs).model.Decoder = r.model.Decoder ∧
    (trainLoop decoder r xs).model.Iterations = r.model.Iterations := by
  induction xs generalizing r with
  | nil => exact ⟨rfl, rfl, rfl⟩
  | cons x rest ih =>
      have h1 := perInstance_frame decoder { r with consumed := r.consumed + 1 } x
      simp only [trainLoop]
      split
      · exact ⟨h1.1, h1.2.1, h1.2.2.1⟩
      · obtain ⟨a, b, c⟩ := ih (perInstance decoder { r with consumed := r.consumed + 1 } x)
        exact ⟨a.trans h1.1, b.trans h1.2.1, c.trans h1.2.2.1⟩

omit [DecidableEq F] [DecodedInstance DI Inst] in
/-- The last statement of `train` binds no collaborator. -/
theorem finalizeStep_frame (r : TrainRun F Inst DI) :
    (finalizeStep r).model.FeatFunc = r.model.FeatFunc ∧
    (finalizeStep r).model.Decoder = r.model.Decoder ∧
    (finalizeStep r).model.Iterations = r.model.Iterations := by
  unfold finalizeStep
  split <;> exact ⟨rfl, rfl, rfl⟩

omit [DecodedInstance DI Inst] in
/-- A sum of zero weights. -/
theorem sumOfWeights_eq_zero (vs : List (Option (SparseWeightVector F))) (f : F)
    (h : ∀ v ∈ vs, weight (nilRead v) f = 0) : sumOfWeights vs f = 0 := by
  induction vs with
  | nil => rfl
  | cons v rest ih =>
      rw [sumOfWeights_cons, h v (List.mem_cons_self _ _),
        ih (fun u hu => h u (List.mem_cons_of_mem _ hu))]
      ring

omit [DecodedInstance DI Inst] in
/-- The dot product with an all-zero vector. -/
theorem DotProductFeatures_of_zero (w : SparseWeightVector F) (L : List F)
    (h : ∀ f, weight w f = 0) : DotProductFeatures w L = 0 := by
  unfold DotProductFeatures
  induction L with
  | nil => rfl
  | cons a rest ih => simp [h a, ih]

/-- Training from all-zero weights, with the collaborators bound: `train` returns, and
every weight is still zero. -/
theorem train_zero_weights (m : LinearPerceptron F Inst DI) (xs : List DI)
    (dec : InstanceDecoder Inst DI) (iterations : ℤ) (w : SparseWeightVector F)
    (fe : FeatureExtractor F Inst) (up : UpdateStrategy F)
    (hW : m.Weights = some w) (hF : m.FeatFunc = some fe) (hU : m.Updater = some up)
    (hZ : ∀ f, weight w f = 0) :
    (m.train xs (some dec) iterations).panic = none ∧
    (m.train xs (some dec) iterations).model.FeatFunc = some fe ∧
    ∃ wf, (m.train xs (some dec) iterations).model.Weights = some wf ∧
      ∀ f, weight wf f = 0 := by
  obtain ⟨htrain, hs⟩ := train_of_ready m xs dec iterations w fe up hW hF hU
  have hz0 : ∀ f, weight (nilRead (enterLoop m up iterations).model.Weights) f = 0 := by
    intro f
    simp only [enterLoop, hW, nilRead]
    exact hZ f
  have hFe : (m.train xs (some dec) iterations).model.FeatFunc = some fe := by
    rw [htrain, (finalizeStep_frame _).1, (trainLoop_frame _ _ _).1]
    exact hF
  have hP : (m.train xs (some dec) iterations).panic = none := by
    rw [htrain]
    exact (finalizeStep_of_sound _ hs).1
  refine ⟨hP, hFe, ?_⟩
  cases up with
  | Trivial u =>
      have hT := trainLoop_trivial (some dec) xs (enterLoop m (.Trivial u) iterations) u rfl
      obtain ⟨-, ⟨w1, hW1⟩, -, -⟩ := hs
      refine ⟨w1, ?_, ?_⟩
      · rw [htrain]
        simp only [finalizeStep, hT, UpdateStrategy.Finalize, TrivialStrategy.Finalize, hW1]
      · intro f
        have h1 := trainLoop_zero (some dec) xs _ f (hz0 f)
        rw [hW1] at h1
        exact h1
  | Averaged u0 =>
      obtain ⟨-, u, acc, -, -, -, -, hsum, hfin⟩ :=
        train_averaged m xs dec iterations w fe u0 hW hF hU
      refine ⟨_, hfin, ?_⟩
      intro f
      rw [weight_UpdateScalarDivide, hsum f, sumOfWeights_eq_zero, zero_div]
      intro v hv
      simp only [liveVectors, List.mem_map, List.mem_range] at hv
      obtain ⟨k, -, rfl⟩ := hv
      exact trainLoop_zero (some dec) _ _ f (hz0 f)

/-- C18.  In every pass of the loop of `train`, whatever the run state, the decoder and
the feature lists, a feature whose weight is 0 before the pass has weight 0 after it.
Consequently, on a model whose weights are all 0 with its collaborators bound, `Train`
over any finite stream with the trivial strategy, or with the averaged strategy and
`Iterations >= 1` (so that `Finalize` divides by a non-zero `Iterations * n` whenever the
stream is not empty), returns with every weight 0 and `Score` equal to 0 for every
instance. -/
theorem C18_zero_weights_absorbing (m : LinearPerceptron F Inst DI) (xs : List DI)
    (dec : InstanceDecoder Inst DI) (w : SparseWeightVector F) (fe : FeatureExtractor F Inst)
    (up : UpdateStrategy F)
    (hW : m.Weights = some w) (hF : m.FeatFunc = some fe) (hU : m.Updater = some up)
    (hD : m.Decoder = some dec) (hZ : ∀ f, weight w f = 0)
    (hI : ∀ u0, up = .Averaged u0 → 1 ≤ m.Iterations) :
    (∀ (decoder : Option (InstanceDecoder Inst DI)) (r : TrainRun F Inst DI) (inst : DI) (f : F),
      weight (nilRead r.model.Weights) f = 0 →
        weight (nilRead (perInstance decoder r inst).model.Weights) f = 0) ∧
    (m.Train xs).panic = none ∧
    (∀ f, weight (nilRead (m.Train xs).model.Weights) f = 0) ∧
    (∀ i, ((m.Train xs).model.Score i).1 = .ok 0) ∧
    (∀ u0, up = .Averaged u0 →
      (∃ acc, (m.Train xs).model.Weights
          = some (UpdateScalarDivide acc ((m.Iterations : ℚ) * (xs.length : ℚ)))) ∧
        (xs ≠ [] → (m.Iterations : ℚ) * (xs.length : ℚ) ≠ 0)) := by
  have hT : m.Train xs = m.train xs (some dec) m.Iterations := by
    simp only [LinearPerceptron.Train, hD]
  obtain ⟨hP, hFe, wf, hWf, hzero⟩ :=
    train_zero_weights m xs dec m.Iterations w fe up hW hF hU hZ
  rw [hT]
  refine ⟨fun decoder r inst f h => perInstance_zero decoder r inst f h, hP, ?_, ?_, ?_⟩
  · intro f
    rw [hWf]
    exact hzero f
  · intro i
    simp only [LinearPerceptron.Score, hFe, hWf, nilRead,
      DotProductFeatures_of_zero wf _ hzero]
  · intro u0 hu0
    subst hu0
    obtain ⟨-, u, acc, -, -, -, -, -, hfin⟩ :=
      train_averaged m xs dec m.Iterations w fe u0 hW hF hU
    refine ⟨⟨acc, hfin⟩, ?_⟩
    intro hne
    have h1 : (1 : ℚ) ≤ (m.Iterations : ℚ) := by exact_mod_cast hI u0 rfl
    have hn : (0 : ℚ) < (xs.length : ℚ) := by exact_mod_cast List.length_pos.2 hne
    positivity

/-- C18 on the scenario's collaborators around an empty weight vector, with the averaged
strategy and two mistaken instances. -/
theorem C18_zero_weights_absorbing_witness :
    weight (nilRead ((scenarioModelWith (some []) (.Averaged zeroAveraged)
      scenarioDecoder 1).Train [scenarioGold, scenarioGold]).model.Weights) Feat.f1 = 0 ∧
    (((scenarioModelWith (some []) (.Averaged zeroAveraged)
      scenarioDecoder 1).Train [scenarioGold, scenarioGold]).model.Score scenarioGold).1 = .ok 0 :=
  ⟨(C18_zero_weights_absorbing
      (scenarioModelWith (some []) (.Averaged zeroAveraged) scenarioDecoder 1)
      [scenarioGold, scenarioGold] scenarioDecoder [] scenarioExtractor (.Averaged zeroAveraged)
      rfl rfl rfl rfl (fun _ => rfl) (fun _ _ => by decide)).2.2.1 Feat.f1,
    (C18_zero_weights_absorbing
      (scenarioModelWith (some []) (.Averaged zeroAveraged) scenarioDecoder 1)
      [scenarioGold, scenarioGold] scenarioDecoder [] scenarioExtractor (.Averaged zeroAveraged)
      rfl rfl rfl rfl (fun _ => rfl) (fun _ _ => by decide)).2.2.2.1 scenarioGold⟩

end Zero

/-! ## The empty stream (C19) -/

section EmptyStream

variable {F Inst DI : Type} [DecidableEq F] [DecodedInstance DI Inst]

open DecodedInstance SparseWeightVector

/-- C19.  For every model with an allocated weight vector `w`, `Train` over a stream
that yields no instance returns; with the trivial strategy the weights are still `w`,
with the averaged strategy they are the empty vector (every feature has weight 0),
whatever `w` was: `Finalize` returns the accumulator that `Init` has just made. -/
theorem C19_empty_stream (m : LinearPerceptron F Inst DI) (w : SparseWeightVector F)
    (up : UpdateStrategy F) (hW : m.Weights = some w) (hU : m.Updater = some up) :
    (m.Train []).panic = none ∧
    (m.Train []).consumed = 0 ∧
    (∀ u, up = .Trivial u → (m.Train []).model.Weights = some w) ∧
    (∀ u, up = .Averaged u →
      (m.Train []).model.Weights = some [] ∧
      ∀ f, weight (nilRead (m.Train []).model.Weights) f = 0) := by
  refine ⟨?_, ?_, ?_, ?_⟩
  · simp only [LinearPerceptron.Train, LinearPerceptron.train, hW, hU, trainLoop, enterLoop,
      finalizeStep]
  · simp only [LinearPerceptron.Train, LinearPerceptron.train, hW, hU, trainLoop, enterLoop,
      finalizeStep]
  · intro u hu
    subst hu
    simp only [LinearPerceptron.Train, LinearPerceptron.train, hW, hU, trainLoop, enterLoop,
      finalizeStep, UpdateStrategy.Init, UpdateStrategy.Finalize, TrivialStrategy.Finalize]
  · intro u hu
    subst hu
    have hfin : (m.Train []).model.Weights = some [] := by
      simp only [LinearPerceptron.Train, LinearPerceptron.train, hW, hU, trainLoop, enterLoop,
        finalizeStep, UpdateStrategy.Init, UpdateStrategy.Finalize, AveragedStrategy.Init,
        AveragedStrategy.Finalize, Option.map_some', UpdateScalarDivide, List.map_nil]
    refine ⟨hfin, fun f => ?_⟩
    rw [hfin]
    rfl

/-- C19 on the scenario model with the averaged strategy: the weights `{f1: 1, f2: 2}`
are gone after `Train` over the empty stream. -/
theorem C19_empty_stream_witness :
    ((scenarioModel (.Averaged zeroAveraged) 1).Train []).model.Weights = some [] :=
  ((C19_empty_stream (scenarioModel (.Averaged zeroAveraged) 1) [(Feat.f1, 1), (Feat.f2, 2)]
    (.Averaged zeroAveraged) rfl rfl).2.2.2 zeroAveraged rfl).1

end EmptyStream

/-! ## Training as a fold (C20) -/

section FoldFacts

variable {F Inst DI : Type} [DecidableEq F] [DecodedInstance DI Inst]

open DecodedInstance SparseWeightVector

/-- The correction block acts on the model and the panic alone: the recorded calls
and the count of instances have no influence on them. -/
theorem correction_congr (r r1 : TrainRun F Inst DI) (a b : DI)
    (hm : r.model = r1.model) (hp : r.panic = r1.panic) :
    (correction r a b).model = (correction r1 a b).model ∧
    (correction r a b).panic = (correction r1 a b).panic := by
  obtain ⟨m, p, c, cs⟩ := r
  obtain ⟨m1, p1, c1, cs1⟩ := r1
  simp only at hm hp
  subst hm hp
  simp only [correction]
  cases m.FeatFunc with
  | none => exact ⟨rfl, rfl⟩
  | some fe =>
      cases m.Weights with
      | none => exact ⟨rfl, rfl⟩
      | some w => exact ⟨rfl, rfl⟩

omit [DecodedInstance DI Inst] in
/-- The strategy's hook acts on the model and the panic alone. -/
theorem updateHook_congr (r r1 : TrainRun F Inst DI)
    (hm : r.model = r1.model) (hp : r.panic = r1.panic) :
    (updateHook r).model = (updateHook r1).model ∧
    (updateHook r).panic = (updateHook r1).panic := by
  obtain ⟨m, p, c, cs⟩ := r
  obtain ⟨m1, p1, c1, cs1⟩ := r1
  simp only at hm hp
  subst hm hp
  simp only [updateHook]
  cases p with
  | some q => exact ⟨rfl, rfl⟩
  | none =>
      cases m.Updater with
      | none => exact ⟨rfl, rfl⟩
      | some up =>
          simp only
          cases hupd : up.Update m.Weights with
          | error q => exact ⟨rfl, rfl⟩
          | ok up1 => exact ⟨rfl, rfl⟩

/-- One pass of the loop acts on the model and the panic alone. -/
theorem perInstance_congr (decoder : Option (InstanceDecoder Inst DI))
    (r r1 : TrainRun F Inst DI) (inst : DI)
    (hm : r.model = r1.model) (hp : r.panic = r1.panic) :
    (perInstance decoder r inst).model = (perInstance decoder r1 inst).model ∧
    (perInstance decoder r inst).panic = (perInstance decoder r1 inst).panic := by
  cases decoder with
  | none => exact ⟨hm, rfl⟩
  | some dec =>
      obtain ⟨m, p, c, cs⟩ := r
      obtain ⟨m1, p1, c1, cs1⟩ := r1
      simp only at hm hp
      subst hm hp
      simp only [perInstance]
      cases Equals inst (dec.Decode (GetInstance inst) m.asModel)
      · simp only [Bool.not_false, if_true]
        have hc := correction_congr
          { model := m, panic := p, consumed := c, calls := cs ++ [.Decode] }
          { model := m, panic := p, consumed := c1, calls := cs1 ++ [.Decode] } inst
          (dec.Decode (GetInstance inst) m.asModel) rfl rfl
        exact updateHook_congr _ _ hc.1 hc.2
      · simp only [Bool.not_true, Bool.false_eq_true, if_false]
        exact updateHook_congr _ _ rfl rfl

/-- The loop acts on the model and the panic alone. -/
theorem trainLoop_congr (decoder : Option (InstanceDecoder Inst DI)) (xs : List DI)
    (r r1 : TrainRun F Inst DI) (hm : r.model = r1.model) (hp : r.panic = r1.panic) :
    (trainLoop decoder r xs).model = (trainLoop decoder r1 xs).model ∧
    (trainLoop decoder r xs).panic = (trainLoop decoder r1 xs).panic := by
  induction xs generalizing r r1 with
  | nil => exact ⟨hm, hp⟩
  | cons x rest ih =>
      have h1 := perInstance_congr decoder { r with consumed := r.consumed + 1 }
        { r1 with consumed := r1.consumed + 1 } x hm hp
      simp only [trainLoop]
      rw [← h1.2]
      cases hq : (perInstance decoder { r with consumed := r.consumed + 1 } x).panic with
      | some p => exact ⟨h1.1, by rw [hq, ← h1.2, hq]⟩
      | none => exact ih _ _ h1.1 h1.2

/-- In a sound run the model after the loop is the left fold of `stepModel` over the
stream. -/
theorem trainLoop_eq_foldl (dec : InstanceDecoder Inst DI) (xs : List DI)
    (r : TrainRun F Inst DI) (h : r.sound) :
    (trainLoop (some dec) r xs).model = xs.foldl (stepModel dec) r.model := by
  induction xs generalizing r with
  | nil => rfl
  | cons x rest ih =>
      have hb : TrainRun.sound { r with consumed := r.consumed + 1 } := h
      have h1 := perInstance_sound dec _ x hb
      have hstep : trainLoop (some dec) r (x :: rest)
          = trainLoop (some dec)
              (perInstance (some dec) { r with consumed := r.consumed + 1 } x) rest := by
        simp only [trainLoop, h1.1]
      have hmodel : (perInstance (some dec) { r with consumed := r.consumed + 1 } x).model
          = stepModel dec r.model x :=
        (perInstance_congr (some dec) { r with consumed := r.consumed + 1 }
          { model := r.model, panic := none, consumed := 0, calls := [] } x rfl h.1).1
      rw [hstep, ih _ h1, hmodel, List.foldl_cons]

/-- With the trivial strategy on an initialised model, `train` returns the model that
the fold of `stepModel` over the stream gives. -/
theorem train_trivial_foldl (m : LinearPerceptron F Inst DI) (xs : List DI)
    (dec : InstanceDecoder Inst DI) (iterations : ℤ) (w : SparseWeightVector F)
    (fe : FeatureExtractor F Inst) (u : TrivialStrategy)
    (hW : m.Weights = some w) (hF : m.FeatFunc = some fe) (hU : m.Updater = some (.Trivial u)) :
    (m.train xs (some dec) iterations).panic = none ∧
    (m.train xs (some dec) iterations).model = xs.foldl (stepModel dec) m ∧
    (∃ w1, (m.train xs (some dec) iterations).model.Weights = some w1) ∧
    (m.train xs (some dec) iterations).model.FeatFunc = some fe ∧
    (m.train xs (some dec) iterations).model.Updater = some (.Trivial u) ∧
    (m.train xs (some dec) iterations).model.Decoder = m.Decoder ∧
    (m.train xs (some dec) iterations).model.Iterations = m.Iterations := by
  obtain ⟨htrain, hs⟩ := train_of_ready m xs dec iterations w fe _ hW hF hU
  have h0 := enterLoop_sound m (.Trivial u) iterations w fe hW hF
  have hm0 : (enterLoop m (.Trivial u) iterations).model = m := by
    cases m
    simp only at hU
    subst hU
    rfl
  have hT := trainLoop_trivial (some dec) xs (enterLoop m (.Trivial u) iterations) u rfl
  have hfin : (finalizeStep (trainLoop (some dec) (enterLoop m (.Trivial u) iterations) xs)).model
      = (trainLoop (some dec) (enterLoop m (.Trivial u) iterations) xs).model := by
    simp only [finalizeStep, hT, UpdateStrategy.Finalize, TrivialStrategy.Finalize]
    generalize (trainLoop (some dec) (enterLoop m (.Trivial u) iterations) xs).model = a at hT
    cases a
    simp only at hT
    subst hT
    rfl
  have hfold := trainLoop_eq_foldl dec xs _ h0
  rw [hm0] at hfold
  have hframe := trainLoop_frame (some dec) xs (enterLoop m (.Trivial u) iterations)
  rw [htrain, hfin]
  refine ⟨?_, hfold, hs.2.1, ?_, hT, ?_, ?_⟩
  · exact (finalizeStep_of_sound _ hs).1
  · rw [hframe.1]
    exact hF
  · rw [hframe.2.1]
    rfl
  · rw [hframe.2.2]
    rfl

/-- The method `Train` with a decoder bound. -/
theorem Train_of_decoder (m : LinearPerceptron F Inst DI) (zs : List DI)
    (dec : InstanceDecoder Inst DI) (hD : m.Decoder = some dec) :
    m.Train zs = m.train zs (some dec) m.Iterations := by
  simp only [LinearPerceptron.Train, hD]

/-- C20.  For every initialised model with the trivial strategy and its collaborators
bound, and all finite streams `xs` and `ys`: `Train` over `xs` returns the model that the
left fold of the per-instance step over `xs` gives, and `Train` over `xs` followed by a
second `Train` over `ys` ends with the same model, hence the same weight vector, as one
`Train` over `xs ++ ys`. -/
theorem C20_train_sequential_fold (m : LinearPerceptron F Inst DI) (xs ys : List DI)
    (dec : InstanceDecoder Inst DI) (w : SparseWeightVector F) (fe : FeatureExtractor F Inst)
    (u : TrivialStrategy)
    (hW : m.Weights = some w) (hF : m.FeatFunc = some fe) (hU : m.Updater = some (.Trivial u))
    (hD : m.Decoder = some dec) :
    (m.Train xs).panic = none ∧
    (m.Train xs).model = xs.foldl (stepModel dec) m ∧
    ((m.Train xs).model.Train ys).panic = none ∧
    (m.Train (xs ++ ys)).panic = none ∧
    ((m.Train xs).model.Train ys).model = (m.Train (xs ++ ys)).model ∧
    ((m.Train xs).model.Train ys).model.Weights = (m.Train (xs ++ ys)).model.Weights := by
  have hT : ∀ zs, m.Train zs = m.train zs (some dec) m.Iterations := by
    intro zs
    simp only [LinearPerceptron.Train, hD]
  obtain ⟨hP1, hM1, ⟨w1, hW1⟩, hF1, hU1, hD1, hI1⟩ :=
    train_trivial_foldl m xs dec m.Iterations w fe u hW hF hU
  obtain ⟨hP3, hM3, -⟩ := train_trivial_foldl m (xs ++ ys) dec m.Iterations w fe u hW hF hU
  rw [← hT] at hP1 hM1 hW1 hF1 hU1 hD1 hI1 hP3 hM3
  obtain ⟨hP2, hM2, -⟩ :=
    train_trivial_foldl (m.Train xs).model ys dec (m.Train xs).model.Iterations w1 fe u
      hW1 hF1 hU1
  have hT2 : (m.Train xs).model.Train ys
      = (m.Train xs).model.train ys (some dec) (m.Train xs).model.Iterations :=
    Train_of_decoder (m.Train xs).model ys dec (hD1.trans hD)
  rw [← hT2] at hP2 hM2
  have hfinal : ((m.Train xs).model.Train ys).model = (m.Train (xs ++ ys)).model := by
    rw [hM2, hM3, hM1, List.foldl_append]
  exact ⟨hP1, hM1, hP2, hP3, hfinal, by rw [hfinal]⟩

/-- C20 on the end-to-end scenario: one mistaken instance, then another. -/
theorem C20_train_sequential_fold_witness :
    (((scenarioModel (.Trivial {}) 1).Train [scenarioGold]).model.Train [scenarioGold]).model
      = ((scenarioModel (.Trivial {}) 1).Train ([scenarioGold] ++ [scenarioGold])).model :=
  (C20_train_sequential_fold (scenarioModel (.Trivial {}) 1) [scenarioGold] [scenarioGold]
    scenarioDecoder [(Feat.f1, 1), (Feat.f2, 2)] scenarioExtractor {} rfl rfl rfl rfl).2.2.2.2.1

end FoldFacts

end Perceptron
